import Mathlib

/-!
Shallow embedding of the `backus_naur_form_parser` repository (Rust) in Lean 4.

The embedding mirrors the source files:
  * `src/backus_naur_form/symbol.rs`                  — `Symbol`
  * `src/backus_naur_form/token.rs`                   — `Token`, `TokenIndex`, equality with `Symbol`
  * `src/backus_naur_form/token/non_terminal_token.rs`— tree queries (`get_at_index`,
    `get_descendant_tokens`, `get_terminals`, `find_descendant`, ...)
  * `src/backus_naur_form/symbol/non_terminal_symbol.rs` — choices, window matching,
    `symbolize_vec`
  * `src/backus_naur_form.rs`                         — `replace_range(s)`,
    `characterize_string`, `symbolize_string`, `compile_string`, `compile_token`,
    `compiles_to_root_token`

Rust `Vec` becomes `List`, `HashMap` lookup becomes a function into `Option`, and
machine panics (`Vec::remove` / `Vec::insert` index out of bounds, `windows(0)`) are
modelled by `Option`: a `none` result is a run that panicked.  The two unbounded
`loop`s of the engine receive an explicit fuel parameter; running out of fuel also
yields `none` (the Rust program simply never returns in that case).
-/

set_option linter.unusedVariables false

namespace BNF

/-- Rust `enum Symbol` (symbol.rs): a terminal literal or a non-terminal name
(angle brackets excluded). -/
inductive Symbol where
  | terminal (text : String)
  | nonTerminal (name : String)
deriving DecidableEq

/-- Rust `enum Token` (token.rs): a `TerminalToken` leaf holding literal text, or a
`NonTerminalToken` interior node with a label and an owned, ordered list of children. -/
inductive Token where
  | terminal (text : String)
  | node (label : String) (children : List Token)

/-- `impl PartialEq<Symbol> for Token` (token.rs, lines 294-307): a terminal token
equals a terminal symbol with the same text, a non-terminal token equals a
non-terminal symbol with the same label name (children ignored); cross-kind
comparisons are false. -/
def tokenEqSymbol : Token → Symbol → Bool
  | Token.terminal t, Symbol.terminal s => decide (t = s)
  | Token.node l _, Symbol.nonTerminal n => decide (l = n)
  | _, _ => false

/-- `NonTerminalToken::get_descendant_tokens` (non_terminal_token.rs, lines 130-142),
written on the node's child list: every descendant in left-to-right pre-order
(an interior node is listed before its own descendants). -/
def get_descendant_tokens : List Token → List Token
  | [] => []
  | Token.terminal s :: rest => Token.terminal s :: get_descendant_tokens rest
  | Token.node l cs :: rest =>
      Token.node l cs :: (get_descendant_tokens cs ++ get_descendant_tokens rest)

/-- Rust `collect::<String>()` over an iterator of strings: concatenation in order. -/
def concatStrings : List String → String
  | [] => ""
  | s :: rest => s ++ concatStrings rest

/-- The text of a terminal token, `None` for a node (used by `filter_map` in
`NonTerminalToken::get_terminals`). -/
def terminalText : Token → Option String
  | Token.terminal s => some s
  | Token.node _ _ => none

/-- `NonTerminalToken::get_terminals` (non_terminal_token.rs, lines 221-229), on the
node's child list: concatenate the text of every terminal among the descendants. -/
def NonTerminalToken.get_terminals (children : List Token) : String :=
  concatStrings ((get_descendant_tokens children).filterMap terminalText)

/-- `Token::get_terminals` (token.rs, lines 147-152). -/
def Token.get_terminals : Token → String
  | Token.terminal s => s
  | Token.node _ cs => NonTerminalToken.get_terminals cs

/-- `NonTerminalToken::get_at_index` (non_terminal_token.rs, lines 73-89), on the
node's child list; the `TokenIndex` is the list of child offsets.  An empty index,
an out-of-range offset, or descending into a terminal all give `none`. -/
def get_at_index (children : List Token) : List Nat → Option Token
  | [] => none
  | [i] => children[i]?
  | i :: rest =>
      match children[i]? with
      | some (Token.node _ cs) => get_at_index cs rest
      | _ => none

/-- `Token::get` (token.rs, lines 91-96): delegates to `get_at_index` on a node,
`none` on a terminal. -/
def Token.get : Token → List Nat → Option Token
  | Token.terminal _, _ => none
  | Token.node _ cs, idx => get_at_index cs idx

/-- `NonTerminalToken::contains_descendant` (non_terminal_token.rs, lines 169-177),
on the node's child list. -/
def contains_descendant (children : List Token) (symbolType : Symbol) : Bool :=
  match children with
  | [] => false
  | t :: rest =>
      (tokenEqSymbol t symbolType ||
        match t with
        | Token.node _ inner => contains_descendant inner symbolType
        | Token.terminal _ => false) ||
      contains_descendant rest symbolType

/-- `impl PartialEq<Symbol> for TerminalToken` (token.rs, lines 279-292), used by the
redundant terminal arm of `find_descendant`. -/
def terminalEqSymbol (text : String) : Symbol → Bool
  | Symbol.terminal s => decide (s = text)
  | Symbol.nonTerminal _ => false

/-- `NonTerminalToken::find_descendant` (non_terminal_token.rs, lines 195-203): finds
the first child that itself equals the symbol reference or contains a matching
descendant. -/
def find_descendant (children : List Token) (symbolType : Symbol) : Option Token :=
  children.find? fun t =>
    tokenEqSymbol t symbolType ||
      match t with
      | Token.terminal inner => terminalEqSymbol inner symbolType
      | Token.node _ inner => contains_descendant inner symbolType

/-- `NonTerminalToken::find_descendant_mut` (non_terminal_token.rs, lines 206-214):
same search as `find_descendant` (the Rust variant merely returns a mutable
reference). -/
def find_descendant_mut (children : List Token) (symbolType : Symbol) : Option Token :=
  children.find? fun t =>
    tokenEqSymbol t symbolType ||
      match t with
      | Token.terminal inner => terminalEqSymbol inner symbolType
      | Token.node _ inner => contains_descendant inner symbolType

/-! ### Range replacement (backus_naur_form.rs, lines 336-368)

`Vec::remove` and `Vec::insert` panic when the index is out of range; the embedding
returns `none` in exactly those situations. -/

/-- Rust `Vec::remove(i)`: returns the removed element and the remaining vector;
panics (`none`) if `i` is out of bounds. -/
def removeAt : List α → Nat → Option (α × List α)
  | [], _ => none
  | x :: xs, 0 => some (x, xs)
  | x :: xs, i + 1 => (removeAt xs i).map fun p => (p.1, x :: p.2)

/-- Rust `Vec::insert(i, a)`: panics (`none`) if `i > len`. -/
def insertAt (l : List α) (i : Nat) (a : α) : Option (List α) :=
  if i ≤ l.length then some (l.take i ++ a :: l.drop i) else none

/-- The loop `for i in (range.start..range.end).rev() { removed.push(vec.remove(i)) }`
of `replace_range`: `count` is `range.end - range.start`; elements are pushed in
descending index order. -/
def removeLoop (start : Nat) : Nat → List α → Option (List α × List α)
  | 0, l => some ([], l)
  | n + 1, l => do
      let p ← removeAt l (start + n)
      let q ← removeLoop start n p.2
      pure (p.1 :: q.1, q.2)

/-- `replace_range` (backus_naur_form.rs, lines 358-368): remove the elements of the
half-open range (top index first), reverse them back into original order, and insert
the reducer's result at the range's start. -/
def replace_range (replaceWith : List α → α) (l : List α) (r : Nat × Nat) :
    Option (List α) := do
  let p ← removeLoop r.1 (r.2 - r.1) l
  insertAt p.2 r.1 (replaceWith p.1.reverse)

/-- Stable insertion into an ascending (by `le`) list: the new element goes before
the first element it is `le`-below-or-equal, so earlier elements of the original
list keep their relative order. -/
def insertByKey (le : α → α → Bool) (a : α) : List α → List α
  | [] => [a]
  | b :: l => if le a b then a :: b :: l else b :: insertByKey le a l

/-- Stable ascending sort, the function Rust's stable `sort_by_key` computes. -/
def sortByKey (le : α → α → Bool) : List α → List α
  | [] => []
  | a :: l => insertByKey le a (sortByKey le l)

/-- `replace_ranges` (backus_naur_form.rs, lines 344-354): sort the ranges by start
ascending (stably), reverse, and replace each range right-to-left. -/
def replace_ranges (replaceWith : List α → α) (l : List α)
    (ranges : List (Nat × Nat)) : Option (List α) :=
  ((sortByKey (fun a b => Nat.ble a.1 b.1) ranges).reverse).foldlM
    (replace_range replaceWith) l

/-! ### Grammar symbols and window matching (non_terminal_symbol.rs) -/

/-- `NonTerminalSymbol` (non_terminal_symbol.rs): a name and its rule, the list of
choices; each choice is an ordered list of symbol references. -/
structure NonTerminalSymbol where
  name : String
  rule : List (List Symbol)
deriving DecidableEq

/-- `NonTerminalSymbol::get_recursive_choices` (non_terminal_symbol.rs, lines 29-34):
the choices containing a reference to the symbol's own name. -/
def get_recursive_choices (s : NonTerminalSymbol) : List (List Symbol) :=
  s.rule.filter fun choice => decide (Symbol.nonTerminal s.name ∈ choice)

/-- `NonTerminalSymbol::get_non_recursive_choices` (non_terminal_symbol.rs,
lines 37-42). -/
def get_non_recursive_choices (s : NonTerminalSymbol) : List (List Symbol) :=
  s.rule.filter fun choice => !decide (Symbol.nonTerminal s.name ∈ choice)

/-- Rust slice equality `window == choice` between `&[Token]` and `&Vec<Symbol>`:
equal lengths and element-wise `PartialEq<Symbol>`. -/
def windowMatches : List Symbol → List Token → Bool
  | [], [] => true
  | s :: cs, t :: ts => tokenEqSymbol t s && windowMatches cs ts
  | _, _ => false

/-- The window of `l` of length `k` starting at index `i` (Rust `slice::windows`). -/
def windowAt (l : List α) (i k : Nat) : List α := (l.drop i).take k

/-- The ranges of all windows of `l` matching `choice`, in ascending start order
(the `windows(choice.len()).filter(...).map(range_from_slice)` pipeline of
`get_ranges_from_choices`). -/
def rangesOfChoice (l : List Token) (choice : List Symbol) : List (Nat × Nat) :=
  (List.range (l.length + 1 - choice.length)).filterMap fun i =>
    if windowMatches choice (windowAt l i choice.length) then
      some (i, i + choice.length)
    else none

/-- `NonTerminalSymbol::get_ranges_from_choices` (non_terminal_symbol.rs,
lines 111-124): the candidate ranges of every choice, concatenated in choice order.
Rust `windows(0)` panics, so an empty choice gives `none`. -/
def get_ranges_from_choices (l : List Token) (choices : List (List Symbol)) :
    Option (List (Nat × Nat)) :=
  if choices.any List.isEmpty then none
  else some (choices.flatMap (rangesOfChoice l))

/-- `get_ranges_of_possible_recursive_symbolization` (non_terminal_symbol.rs,
lines 77-84). -/
def get_ranges_of_possible_recursive_symbolization (s : NonTerminalSymbol)
    (l : List Token) : Option (List (Nat × Nat)) :=
  get_ranges_from_choices l (get_recursive_choices s)

/-- `get_ranges_of_possible_non_recursive_symbolization` (non_terminal_symbol.rs,
lines 89-94). -/
def get_ranges_of_possible_non_recursive_symbolization (s : NonTerminalSymbol)
    (l : List Token) : Option (List (Nat × Nat)) :=
  get_ranges_from_choices l (get_non_recursive_choices s)

/-- `get_ranges_of_possible_symbolization` (non_terminal_symbol.rs, lines 98-100):
candidate ranges over every choice of the rule. -/
def get_ranges_of_possible_symbolization (s : NonTerminalSymbol) (l : List Token) :
    Option (List (Nat × Nat)) :=
  get_ranges_from_choices l s.rule

/-- `NonTerminalSymbol::further_symbolization_possible` (non_terminal_symbol.rs,
lines 104-108). -/
def further_symbolization_possible (s : NonTerminalSymbol) (l : List Token) :
    Option Bool :=
  (get_ranges_of_possible_symbolization s l).map fun r => !r.isEmpty

/-- The `loop` of `symbolize_vec` (non_terminal_symbol.rs, lines 61-71): replace the
current recursive ranges, recompute, and stop once none remain.  `fuel` bounds the
number of iterations of this otherwise unbounded loop. -/
def symbolizeRecLoop (s : NonTerminalSymbol) :
    Nat → List Token → List (Nat × Nat) → Option (List Token)
  | 0, _, _ => none
  | fuel + 1, vec, ranges => do
      let vec' ← replace_ranges (fun ts => Token.node s.name ts) vec ranges
      let ranges' ← get_ranges_of_possible_recursive_symbolization s vec'
      if ranges'.isEmpty then pure vec' else symbolizeRecLoop s fuel vec' ranges'

/-- `NonTerminalSymbol::symbolize_vec` (non_terminal_symbol.rs, lines 52-72): replace
the non-recursive candidate ranges once, then loop on the recursive ranges. -/
def symbolize_vec (s : NonTerminalSymbol) (fuel : Nat) (vec : List Token) :
    Option (List Token) := do
  let ranges ← get_ranges_of_possible_non_recursive_symbolization s vec
  let vec' ← replace_ranges (fun ts => Token.node s.name ts) vec ranges
  let recRanges ← get_ranges_of_possible_recursive_symbolization s vec'
  symbolizeRecLoop s fuel vec' recRanges

/-! ### The grammar and the fixpoint engine (backus_naur_form.rs) -/

/-- `BackusNaurForm` (backus_naur_form.rs, lines 58-66): the registered symbols with
their priorities, in declaration order.  (The `compile_functions` map is passed
separately to the compile functions below, mirroring `HashMap::get` by a function
into `Option`.) -/
structure BackusNaurForm where
  rules : List (NonTerminalSymbol × Nat)
deriving DecidableEq

/-- `BackusNaurForm::contains_symbol` (backus_naur_form.rs, lines 80-84). -/
def contains_symbol (bnf : BackusNaurForm) (name : String) : Bool :=
  bnf.rules.any fun p => decide (p.1.name = name)

/-- `characterize_string` (backus_naur_form.rs, lines 395-400): one terminal token
per character. -/
def characterize_string (s : String) : List Token :=
  s.toList.map fun c => Token.terminal c.toString

/-- The rule list after `sort_by_key(priority)` (stable, ascending) followed by
`reverse` (backus_naur_form.rs, lines 116-118). -/
def sorted_rules (bnf : BackusNaurForm) : List (NonTerminalSymbol × Nat) :=
  (sortByKey (fun a b => Nat.ble a.2 b.2) bnf.rules).reverse

/-- One pass of the `for_each` over the sorted rules (backus_naur_form.rs,
lines 122-128): check `further_symbolization_possible` (recording whether this
pass is productive), then unconditionally run `symbolize_vec`. -/
def symbolizePass (fuel : Nat) :
    List (NonTerminalSymbol × Nat) → List Token → Bool → Option (List Token × Bool)
  | [], vec, modified => some (vec, modified)
  | (sym, _) :: rest, vec, modified => do
      let possible ← further_symbolization_possible sym vec
      let vec' ← symbolize_vec sym fuel vec
      symbolizePass fuel rest vec' (modified || possible)

/-- The outer `loop` of `symbolize_string` (backus_naur_form.rs, lines 120-133):
repeat full passes until one is unproductive.  `fuel` bounds the pass count. -/
def symbolizeLoop (rules : List (NonTerminalSymbol × Nat)) :
    Nat → List Token → Option (List Token)
  | 0, _ => none
  | fuel + 1, vec => do
      let r ← symbolizePass (fuel + 1) rules vec false
      if r.2 then symbolizeLoop rules fuel r.1 else pure r.1

/-- `BackusNaurForm::symbolize_string` (backus_naur_form.rs, lines 112-136). -/
def symbolize_string (bnf : BackusNaurForm) (fuel : Nat) (s : String) :
    Option (List Token) :=
  symbolizeLoop (sorted_rules bnf) fuel (characterize_string s)

/-- `BackusNaurForm::compiles_to_root_token` (backus_naur_form.rs, lines 256-258). -/
def compiles_to_root_token (bnf : BackusNaurForm) (fuel : Nat) (s : String) :
    Option Bool :=
  (symbolize_string bnf fuel s).map fun toks => decide (toks.length = 1)

/-! ### Compiler dispatch (backus_naur_form.rs, lines 166-192)

A Rust `CompileFunction` receives the node and the grammar; with the grammar fixed
during a `compile_string` run, a registered callback is a function of the node's
label and children.  The `HashMap<String, CompileFunction>` is modelled by its
lookup function `String → Option _`. -/

/-- The table of registered compile callbacks, keyed by non-terminal name. -/
def CompileFns : Type := String → Option (String → List Token → String)

/-- `BackusNaurForm::compile_token` (backus_naur_form.rs, lines 181-186): invoke the
callback registered for the node's label, if any. -/
def compile_token (fns : CompileFns) (label : String) (children : List Token) :
    Option String :=
  (fns label).map fun f => f label children

/-- The per-token mapping inside `compile_string` (backus_naur_form.rs,
lines 170-175): a node is compiled by its callback or falls back to its flattened
terminal text; a terminal is its own text. -/
def compileDispatch (fns : CompileFns) : Token → String
  | Token.node l cs => (compile_token fns l cs).getD (NonTerminalToken.get_terminals cs)
  | Token.terminal t => t

/-- `BackusNaurForm::compile_string` (backus_naur_form.rs, lines 166-177):
symbolize, map each top-level token through the dispatch, and concatenate. -/
def compile_string (bnf : BackusNaurForm) (fns : CompileFns) (fuel : Nat)
    (s : String) : Option String :=
  (symbolize_string bnf fuel s).map fun toks =>
    concatStrings (toks.map (compileDispatch fns))

/-! ### Proof-support definitions -/

/-- Structural flattening of a token sequence: the terminal text of all leaves in
left-to-right order (proved below to agree with the `get_terminals` family). -/
def flatTokens : List Token → String
  | [] => ""
  | Token.terminal s :: rest => s ++ flatTokens rest
  | Token.node _ cs :: rest => flatTokens cs ++ flatTokens rest

/-- The intended effect of `replace_ranges` on ranges given in descending start
order: each range becomes the reducer applied to the slice it covers, and
everything outside the ranges is kept. -/
def segmented (f : List α → α) (l : List α) : List (Nat × Nat) → List α
  | [] => l
  | (s, e) :: rs => segmented f (l.take s) rs ++ f (windowAt l s (e - s)) :: l.drop e

/-- The elements of `l` whose index lies outside every one of the given half-open
ranges, in their original order. -/
def outsideElems (l : List α) (ranges : List (Nat × Nat)) : List α :=
  (List.range l.length).filterMap fun i =>
    if ranges.any (fun r => decide (r.1 ≤ i) && decide (i < r.2)) then none else l[i]?

/-- Concrete grammar used by the witnesses: `<digit> ::= "1" | "2"`. -/
def digitW : NonTerminalSymbol :=
  { name := "digit", rule := [[Symbol.terminal ("1")], [Symbol.terminal ("2")]] }

/-- Concrete grammar used by the witnesses (single rule, priority 0). -/
def bnfW : BackusNaurForm := { rules := [(digitW, 0)] }

/-- The symbolization of `"12"` under `bnfW`. -/
def toksW : List Token :=
  [Token.node ("digit") [Token.terminal ("1")],
   Token.node ("digit") [Token.terminal ("2")]]

/-- First of two equal-priority rules, used to exhibit the declaration-order
reversal. -/
def ruleA : NonTerminalSymbol × Nat :=
  ({ name := "a", rule := [[Symbol.terminal ("x")]] }, 0)

/-- Second of two equal-priority rules. -/
def ruleB : NonTerminalSymbol × Nat :=
  ({ name := "b", rule := [[Symbol.terminal ("y")]] }, 0)

/-- Two equal-priority rules, declared `a` first, then `b`. -/
def bnfAB : BackusNaurForm := { rules := [ruleA, ruleB] }

/-! ## Lemmas: flattening -/

theorem concatStrings_append (a b : List String) :
    concatStrings (a ++ b) = concatStrings a ++ concatStrings b := by
  induction a with
  | nil => simp [concatStrings]
  | cons x xs ih => simp [concatStrings, ih, String.append_assoc]

theorem flatTokens_append (a b : List Token) :
    flatTokens (a ++ b) = flatTokens a ++ flatTokens b := by
  induction a with
  | nil => simp [flatTokens]
  | cons t rest ih =>
      cases t with
      | terminal s => simp [flatTokens, ih, String.append_assoc]
      | node l cs => simp [flatTokens, ih, String.append_assoc]

theorem get_descendant_tokens_append (a b : List Token) :
    get_descendant_tokens (a ++ b) =
      get_descendant_tokens a ++ get_descendant_tokens b := by
  induction a with
  | nil => simp [get_descendant_tokens]
  | cons t rest ih =>
      cases t with
      | terminal s => simp [get_descendant_tokens, ih]
      | node l cs => simp [get_descendant_tokens, ih]

theorem NonTerminalToken.get_terminals_eq_flatTokens (cs : List Token) :
    NonTerminalToken.get_terminals cs = flatTokens cs := by
  induction cs using flatTokens.induct with
  | case1 =>
      simp [NonTerminalToken.get_terminals, get_descendant_tokens, concatStrings,
        flatTokens]
  | case2 s rest ih =>
      simp [NonTerminalToken.get_terminals, get_descendant_tokens, terminalText,
        concatStrings, flatTokens] at ih ⊢
      rw [ih]
  | case3 l cs rest ihcs ihrest =>
      simp only [NonTerminalToken.get_terminals] at ihcs ihrest ⊢
      simp [get_descendant_tokens, terminalText, flatTokens, concatStrings,
        List.filterMap_append, concatStrings_append, ihcs, ihrest]

theorem Token.get_terminals_terminal (s : String) :
    Token.get_terminals (Token.terminal s) = s := rfl

theorem Token.get_terminals_node (l : String) (cs : List Token) :
    Token.get_terminals (Token.node l cs) = flatTokens cs := by
  simp [Token.get_terminals, NonTerminalToken.get_terminals_eq_flatTokens]

theorem concat_get_terminals_eq_flatTokens (l : List Token) :
    concatStrings (l.map Token.get_terminals) = flatTokens l := by
  induction l with
  | nil => simp [concatStrings, flatTokens]
  | cons t rest ih =>
      cases t with
      | terminal s => simp [concatStrings, flatTokens, ih, Token.get_terminals]
      | node lab cs =>
          simp [concatStrings, flatTokens, ih, Token.get_terminals_node]

theorem flatTokens_characterize (s : String) :
    flatTokens (characterize_string s) = s := by
  have h : ∀ cs : List Char,
      flatTokens (cs.map fun c => Token.terminal c.toString) = String.mk cs := by
    intro cs
    induction cs with
    | nil => simp [flatTokens]
    | cons c rest ih =>
        simp only [List.map_cons, flatTokens, ih]
        show String.mk [c] ++ String.mk rest = String.mk (c :: rest)
        rfl
  obtain ⟨data⟩ := s
  exact h data

/-! ## Lemmas: element removal, insertion, `replace_range` -/

theorem removeAt_eq (l : List α) (i : Nat) (h : i < l.length) :
    removeAt l i = some (l[i], l.take i ++ l.drop (i + 1)) := by
  induction l generalizing i with
  | nil => simp at h
  | cons x xs ih =>
      cases i with
      | zero => simp [removeAt]
      | succ n =>
          have hn : n < xs.length := by simpa using h
          simp [removeAt, ih n hn]

theorem removeAt_none (l : List α) (i : Nat) (h : l.length ≤ i) :
    removeAt l i = none := by
  induction l generalizing i with
  | nil => simp [removeAt]
  | cons x xs ih =>
      cases i with
      | zero => simp at h
      | succ n => simp [removeAt, ih n (by simpa using h)]

theorem removeLoop_eq (start n : Nat) (l : List α) (h : start + n ≤ l.length) :
    removeLoop start n l =
      some ((windowAt l start n).reverse, l.take start ++ l.drop (start + n)) := by
  induction n generalizing l with
  | zero => simp [removeLoop, windowAt]
  | succ n ih =>
      have hlt : start + n < l.length := by omega
      have hA : (l.take (start + n)).length = start + n := by
        simp [List.length_take]; omega
      rw [removeLoop, removeAt_eq l (start + n) hlt]
      have hlen : start + n ≤ (l.take (start + n) ++ l.drop (start + n + 1)).length := by
        simp [List.length_take, List.length_drop]; omega
      simp only [Option.bind_eq_bind, Option.some_bind]
      rw [ih _ hlen]
      simp only [Option.some_bind]
      have hdropA : (l.take (start + n) ++ l.drop (start + n + 1)).drop start =
          (l.take (start + n)).drop start ++ l.drop (start + n + 1) := by
        rw [List.drop_append_eq_append_drop, hA]
        simp [Nat.sub_eq_zero_of_le (by omega : start ≤ start + n)]
      have hwin : windowAt (l.take (start + n) ++ l.drop (start + n + 1)) start n =
          windowAt l start n := by
        unfold windowAt
        rw [hdropA, List.take_append_eq_append_take]
        have hlen2 : ((l.take (start + n)).drop start).length = n := by
          simp [List.length_drop, List.length_take]; omega
        rw [hlen2]
        simp [List.drop_take]
      have htake : (l.take (start + n) ++ l.drop (start + n + 1)).take start =
          l.take start := by
        rw [List.take_append_eq_append_take, hA]
        simp [Nat.sub_eq_zero_of_le (by omega : start ≤ start + n), List.take_take,
          Nat.min_eq_left (by omega : start ≤ start + n)]
      have hdrop : (l.take (start + n) ++ l.drop (start + n + 1)).drop (start + n) =
          l.drop (start + n + 1) := by
        rw [List.drop_append_eq_append_drop, hA]
        simp [List.drop_length]
      have hwins : windowAt l start (n + 1) = windowAt l start n ++ [l[start + n]] := by
        unfold windowAt
        rw [List.take_succ]
        have : (l.drop start)[n]? = some l[start + n] := by
          rw [List.getElem?_drop]
          exact List.getElem?_eq_getElem (by omega)
        simp [this]
      rw [hwin, htake, hdrop, hwins]
      simp [List.reverse_append, Nat.add_assoc]

theorem removeLoop_none (start n : Nat) (l : List α) (hn : 0 < n)
    (h : l.length < start + n) : removeLoop start n l = none := by
  cases n with
  | zero => omega
  | succ m =>
      rw [removeLoop, removeAt_none l (start + m) (by omega)]
      rfl

theorem replace_range_eq (f : List α → α) (l : List α) (s e : Nat)
    (hse : s ≤ e) (he : e ≤ l.length) :
    replace_range f l (s, e) =
      some (l.take s ++ f (windowAt l s (e - s)) :: l.drop e) := by
  unfold replace_range
  have h1 : s + (e - s) = e := by omega
  rw [removeLoop_eq s (e - s) l (by omega)]
  rw [h1]
  have hlen : s ≤ (l.take s ++ l.drop e).length := by
    rw [List.length_append, List.length_take, List.length_drop,
      Nat.min_eq_left (by omega : s ≤ l.length)]
    omega
  have hsl : (l.take s).length = s := by simp [List.length_take]; omega
  have htake : (l.take s ++ l.drop e).take s = l.take s := by
    rw [List.take_append_eq_append_take, hsl, Nat.sub_self]
    simp [List.take_take]
  have hdrop : (l.take s ++ l.drop e).drop s = l.drop e := by
    rw [List.drop_append_eq_append_drop, hsl, Nat.sub_self]
    simp [List.drop_take]
  simp only [Option.bind_eq_bind, Option.some_bind]
  unfold insertAt
  rw [if_pos hlen, List.reverse_reverse, htake, hdrop]

theorem replace_range_some (f : List α → α) (l : List α) (s e : Nat)
    (out : List α) (hse : s < e) (h : replace_range f l (s, e) = some out) :
    e ≤ l.length ∧ out = l.take s ++ f (windowAt l s (e - s)) :: l.drop e := by
  by_cases hle : e ≤ l.length
  · refine ⟨hle, ?_⟩
    rw [replace_range_eq f l s e (Nat.le_of_lt hse) hle] at h
    exact (Option.some.inj h).symm
  · exfalso
    unfold replace_range at h
    rw [removeLoop_none s (e - s) l (by omega) (by omega)] at h
    simp at h

theorem replace_range_empty_range (f : List α → α) (l : List α) (s e : Nat)
    (he : e ≤ s) :
    replace_range f l (s, e) =
      if s ≤ l.length then some (l.take s ++ f [] :: l.drop s) else none := by
  unfold replace_range
  have h0 : e - s = 0 := by omega
  rw [h0]
  simp only [removeLoop, Option.bind_eq_bind, Option.some_bind]
  simp [insertAt, List.reverse_nil]

/-! ## Lemmas: `replace_range(s)` preserves the flattened text -/

theorem flatTokens_cons_node (name : String) (cs rest : List Token) :
    flatTokens (Token.node name cs :: rest) = flatTokens cs ++ flatTokens rest := by
  simp [flatTokens]

theorem flatTokens_decompose (l : List Token) (s e : Nat) (hse : s ≤ e)
    (he : e ≤ l.length) :
    flatTokens l =
      flatTokens (l.take s) ++ (flatTokens (windowAt l s (e - s)) ++ flatTokens (l.drop e)) := by
  have h1 : l.drop e = (l.drop s).drop (e - s) := by
    rw [List.drop_drop]
    congr 1
    omega
  conv_lhs => rw [← List.take_append_drop s l]
  rw [flatTokens_append]
  congr 1
  conv_lhs => rw [← List.take_append_drop (e - s) (l.drop s)]
  rw [flatTokens_append, ← h1]
  rfl

theorem flat_replace_range (name : String) (l out : List Token) (r : Nat × Nat)
    (h : replace_range (fun ts => Token.node name ts) l r = some out) :
    flatTokens out = flatTokens l := by
  obtain ⟨s, e⟩ := r
  by_cases hse : s ≤ e
  · by_cases he : e ≤ l.length
    · rw [replace_range_eq _ l s e hse he] at h
      have hout : out = l.take s ++ Token.node name (windowAt l s (e - s)) :: l.drop e :=
        (Option.some.inj h).symm
      rw [hout, flatTokens_append, flatTokens_cons_node,
        flatTokens_decompose l s e hse he]
    · exfalso
      rcases Nat.lt_or_ge s e with hlt | hge
      · unfold replace_range at h
        rw [removeLoop_none s (e - s) l (by omega) (by omega)] at h
        simp at h
      · have hseq : s = e := by omega
        subst hseq
        rw [replace_range_empty_range _ l s s (Nat.le_refl s)] at h
        rw [if_neg (by omega)] at h
        simp at h
  · rw [replace_range_empty_range _ l s e (by omega)] at h
    by_cases hsl : s ≤ l.length
    · rw [if_pos hsl] at h
      have hout : out = l.take s ++ Token.node name [] :: l.drop s :=
        (Option.some.inj h).symm
      have hnil : flatTokens ([] : List Token) = "" := by simp [flatTokens]
      rw [hout, flatTokens_append, flatTokens_cons_node, hnil]
      have hemp : ("" : String) ++ flatTokens (l.drop s) = flatTokens (l.drop s) := rfl
      rw [hemp, ← flatTokens_append, List.take_append_drop]
    · rw [if_neg hsl] at h
      simp at h

theorem flat_foldlM (name : String) (Rs : List (Nat × Nat)) :
    ∀ l out : List Token,
      List.foldlM (replace_range (fun ts => Token.node name ts)) l Rs = some out →
      flatTokens out = flatTokens l := by
  induction Rs with
  | nil =>
      intro l out h
      simp [List.foldlM] at h
      rw [h]
  | cons r Rs ih =>
      intro l out h
      rw [List.foldlM_cons] at h
      obtain ⟨mid, h1, h2⟩ := Option.bind_eq_some.mp h
      rw [ih mid out h2, flat_replace_range name l mid r h1]

theorem flat_replace_ranges (name : String) (l out : List Token)
    (ranges : List (Nat × Nat))
    (h : replace_ranges (fun ts => Token.node name ts) l ranges = some out) :
    flatTokens out = flatTokens l :=
  flat_foldlM name _ l out h

/-! ## Lemmas: the stable sort -/

theorem insertByKey_perm (le : α → α → Bool) (a : α) (l : List α) :
    (insertByKey le a l).Perm (a :: l) := by
  induction l with
  | nil => exact List.Perm.refl _
  | cons b l ih =>
      by_cases h : le a b
      · simp [insertByKey, h]
      · simp only [insertByKey, h, Bool.false_eq_true, if_false]
        exact (ih.cons b).trans (List.Perm.swap a b l)

theorem sortByKey_perm (le : α → α → Bool) (l : List α) :
    (sortByKey le l).Perm l := by
  induction l with
  | nil => exact List.Perm.refl _
  | cons a l ih => exact (insertByKey_perm le a (sortByKey le l)).trans (ih.cons a)

theorem mem_sortByKey (le : α → α → Bool) (l : List α) (x : α) :
    x ∈ sortByKey le l ↔ x ∈ l :=
  (sortByKey_perm le l).mem_iff

theorem mem_insertByKey (le : α → α → Bool) (a : α) (l : List α) (x : α) :
    x ∈ insertByKey le a l ↔ x = a ∨ x ∈ l := by
  rw [(insertByKey_perm le a l).mem_iff, List.mem_cons]

theorem insertByKey_pairwise (le : α → α → Bool)
    (htotal : ∀ a b, le a b = true ∨ le b a = true)
    (htrans : ∀ a b c, le a b = true → le b c = true → le a c = true)
    (a : α) (l : List α) (hl : l.Pairwise (fun x y => le x y = true)) :
    (insertByKey le a l).Pairwise (fun x y => le x y = true) := by
  induction l with
  | nil => simp [insertByKey]
  | cons b l ih =>
      rcases List.pairwise_cons.mp hl with ⟨hb, hl'⟩
      by_cases h : le a b
      · simp only [insertByKey, h, if_true]
        refine List.pairwise_cons.mpr ⟨?_, hl⟩
        intro y hy
        rcases List.mem_cons.mp hy with rfl | hy
        · exact h
        · exact htrans a b y h (hb y hy)
      · simp only [insertByKey, h, Bool.false_eq_true, if_false]
        refine List.pairwise_cons.mpr ⟨?_, ih hl'⟩
        intro y hy
        rcases (mem_insertByKey le a l y).mp hy with heq | hy
        · rw [heq]
          rcases htotal a b with hab | hba
          · exact absurd hab h
          · exact hba
        · exact hb y hy

theorem sortByKey_pairwise (le : α → α → Bool)
    (htotal : ∀ a b, le a b = true ∨ le b a = true)
    (htrans : ∀ a b c, le a b = true → le b c = true → le a c = true)
    (l : List α) :
    (sortByKey le l).Pairwise (fun x y => le x y = true) := by
  induction l with
  | nil => simp [sortByKey]
  | cons a l ih => exact insertByKey_pairwise le htotal htrans a _ ih

theorem sublist_insertByKey (le : α → α → Bool) (c : α) (m : List α) :
    m.Sublist (insertByKey le c m) := by
  induction m with
  | nil => simp [insertByKey]
  | cons b m ih =>
      by_cases h : le c b
      · simp only [insertByKey, h, if_true]
        exact List.Sublist.cons c (List.Sublist.refl _)
      · simp only [insertByKey, h, Bool.false_eq_true, if_false]
        exact List.Sublist.cons₂ b ih

theorem insertByKey_pair (le : α → α → Bool) (a b : α) (m : List α)
    (hab : le a b = true) (hb : b ∈ m) :
    [a, b].Sublist (insertByKey le a m) := by
  induction m with
  | nil => simp at hb
  | cons x m ih =>
      by_cases h : le a x
      · simp only [insertByKey, h, if_true]
        exact List.Sublist.cons₂ a (List.singleton_sublist.mpr hb)
      · have hbx : b ≠ x := by
          intro heq
          rw [heq] at hab
          exact h hab
        rcases List.mem_cons.mp hb with rfl | hbm
        · exact absurd rfl hbx
        · simp only [insertByKey, h, Bool.false_eq_true, if_false]
          exact List.Sublist.cons x (ih hbm)

theorem sortByKey_stable_pair (le : α → α → Bool) (a b : α) (l : List α)
    (hab : le a b = true) (h : [a, b].Sublist l) :
    [a, b].Sublist (sortByKey le l) := by
  induction l with
  | nil => simp at h
  | cons x l ih =>
      cases h with
      | cons _ h' => exact (ih h').trans (sublist_insertByKey le x (sortByKey le l))
      | cons₂ _ h' =>
          have hb : b ∈ sortByKey le l :=
            (mem_sortByKey le l b).mpr (List.singleton_sublist.mp h')
          exact insertByKey_pair le a b (sortByKey le l) hab hb

/-! ## Lemmas: the engine preserves the flattened text -/

theorem flat_symbolizeRecLoop (s : NonTerminalSymbol) :
    ∀ (fuel : Nat) (vec : List Token) (ranges : List (Nat × Nat)) (out : List Token),
      symbolizeRecLoop s fuel vec ranges = some out →
      flatTokens out = flatTokens vec := by
  intro fuel
  induction fuel with
  | zero => intro vec ranges out h; simp [symbolizeRecLoop] at h
  | succ fuel ih =>
      intro vec ranges out h
      rw [symbolizeRecLoop] at h
      obtain ⟨vec', h1, h2⟩ := Option.bind_eq_some.mp h
      obtain ⟨ranges', h3, h4⟩ := Option.bind_eq_some.mp h2
      by_cases hemp : ranges'.isEmpty
      · rw [if_pos hemp] at h4
        have : vec' = out := Option.some.inj h4
        rw [← this]
        exact flat_replace_ranges s.name vec vec' ranges h1
      · rw [if_neg hemp] at h4
        rw [ih vec' ranges' out h4]
        exact flat_replace_ranges s.name vec vec' ranges h1

theorem flat_symbolize_vec (s : NonTerminalSymbol) (fuel : Nat)
    (vec out : List Token) (h : symbolize_vec s fuel vec = some out) :
    flatTokens out = flatTokens vec := by
  rw [symbolize_vec] at h
  obtain ⟨ranges, h1, h2⟩ := Option.bind_eq_some.mp h
  obtain ⟨vec', h3, h4⟩ := Option.bind_eq_some.mp h2
  obtain ⟨recRanges, h5, h6⟩ := Option.bind_eq_some.mp h4
  rw [flat_symbolizeRecLoop s fuel vec' recRanges out h6]
  exact flat_replace_ranges s.name vec vec' ranges h3

theorem flat_symbolizePass (fuel : Nat) (rules : List (NonTerminalSymbol × Nat)) :
    ∀ (vec : List Token) (acc : Bool) (out : List Token) (m : Bool),
      symbolizePass fuel rules vec acc = some (out, m) →
      flatTokens out = flatTokens vec := by
  induction rules with
  | nil =>
      intro vec acc out m h
      simp [symbolizePass] at h
      rw [h.1]
  | cons p rest ih =>
      intro vec acc out m h
      obtain ⟨sym, prio⟩ := p
      rw [symbolizePass] at h
      obtain ⟨possible, h1, h2⟩ := Option.bind_eq_some.mp h
      obtain ⟨vec', h3, h4⟩ := Option.bind_eq_some.mp h2
      rw [ih vec' (acc || possible) out m h4]
      exact flat_symbolize_vec sym fuel vec vec' h3

theorem flat_symbolizeLoop (rules : List (NonTerminalSymbol × Nat)) :
    ∀ (fuel : Nat) (vec out : List Token),
      symbolizeLoop rules fuel vec = some out →
      flatTokens out = flatTokens vec := by
  intro fuel
  induction fuel with
  | zero => intro vec out h; simp [symbolizeLoop] at h
  | succ fuel ih =>
      intro vec out h
      rw [symbolizeLoop] at h
      obtain ⟨r, h1, h2⟩ := Option.bind_eq_some.mp h
      obtain ⟨vec', m⟩ := r
      by_cases hm : m
      · subst hm
        rw [if_pos rfl] at h2
        rw [ih vec' out h2]
        exact flat_symbolizePass (fuel + 1) rules vec false vec' true h1
      · simp only [Bool.not_eq_true] at hm
        subst hm
        simp only [if_false, Bool.false_eq_true] at h2
        have : vec' = out := Option.some.inj h2
        rw [← this]
        exact flat_symbolizePass (fuel + 1) rules vec false vec' false h1

/-! ## Claim C1: round-trip -/

/-- C1.  Round-trip: for every grammar and input string, whenever
`symbolize_string` returns a token sequence, concatenating the terminal text
(`Token::get_terminals`) of the returned tokens in left-to-right order reproduces the
input string exactly — collapsing never drops, duplicates, or reorders characters.
(A `none` result is a run of the Rust program that panicked or never terminated and
so returned no tokens.) -/
theorem claim_C1_round_trip (bnf : BackusNaurForm) (fuel : Nat) (s : String)
    (toks : List Token) (h : symbolize_string bnf fuel s = some toks) :
    concatStrings (toks.map Token.get_terminals) = s := by
  rw [concat_get_terminals_eq_flatTokens]
  rw [flat_symbolizeLoop (sorted_rules bnf) fuel (characterize_string s) toks h]
  exact flatTokens_characterize s

/-- Witness for C1 at the grammar `<digit> ::= "1" | "2"` and input `"12"`. -/
theorem claim_C1_round_trip_witness :
    concatStrings (toksW.map Token.get_terminals) = "12" :=
  claim_C1_round_trip bnfW 5 ("12") toksW rfl

/-! ## Claim C5: compile dispatch with pass-through -/

/-- C5.  `compile_string` runs `symbolize_string` and maps each top-level token
independently: a node whose label has a registered callback becomes the callback's
result, a node without one becomes its flattened terminal text, a terminal becomes
its own text; the results are concatenated in order.  Recursion into children never
happens unless the callback itself performs it: the dispatch only ever consults the
top-level token. -/
theorem claim_C5_compile_dispatch (bnf : BackusNaurForm) (fns : CompileFns)
    (fuel : Nat) (s : String) (toks : List Token)
    (h : symbolize_string bnf fuel s = some toks) :
    compile_string bnf fns fuel s =
      some (concatStrings (toks.map (compileDispatch fns))) ∧
    (∀ (l : String) (cs : List Token) (f : String → List Token → String),
        fns l = some f → compileDispatch fns (Token.node l cs) = f l cs) ∧
    (∀ (l : String) (cs : List Token),
        fns l = none →
        compileDispatch fns (Token.node l cs) = NonTerminalToken.get_terminals cs) ∧
    (∀ t : String, compileDispatch fns (Token.terminal t) = t) := by
  refine ⟨?_, ?_, ?_, ?_⟩
  · rw [compile_string, h]
    rfl
  · intro l cs f hf
    simp [compileDispatch, compile_token, hf]
  · intro l cs hf
    simp [compileDispatch, compile_token, hf]
  · intro t
    rfl

/-- A concrete callback table: a callback registered for `digit` only. -/
def fnsW : CompileFns :=
  fun n => if n = "digit" then some (fun _ _ => "X") else none

/-- Witness for C5: the dispatch equation and all three per-token cases at concrete
inputs. -/
theorem claim_C5_compile_dispatch_witness :
    compile_string bnfW fnsW 5 ("12") =
      some (concatStrings (toksW.map (compileDispatch fnsW))) ∧
    compileDispatch fnsW (Token.node ("digit") [Token.terminal ("1")]) = "X" ∧
    compileDispatch fnsW (Token.node ("other") []) =
      NonTerminalToken.get_terminals [] ∧
    compileDispatch fnsW (Token.terminal ("z")) = "z" := by
  obtain ⟨h1, h2, h3, h4⟩ := claim_C5_compile_dispatch bnfW fnsW 5 ("12") toksW rfl
  exact ⟨h1, h2 ("digit") [Token.terminal ("1")] (fun _ _ => "X") rfl,
    h3 ("other") [] rfl, h4 ("z")⟩

/-! ## Claim C7: path resolution is total and misses are absent results -/

/-- C7.  `get_at_index` (and `Token::get`) are total functions into `Option`: they
return `none` — never panic — when the path is empty, when the first offset is out
of range, or when the path tries to descend below a terminal; `Token::get` on a
terminal token is always `none`. -/
theorem claim_C7_path_resolution :
    (∀ children : List Token, get_at_index children [] = none) ∧
    (∀ (s : String) (idx : List Nat), Token.get (Token.terminal s) idx = none) ∧
    (∀ (children : List Token) (i : Nat) (idx : List Nat),
        children.length ≤ i → get_at_index children (i :: idx) = none) ∧
    (∀ (children : List Token) (i : Nat) (s : String) (rest : List Nat),
        rest ≠ [] → children[i]? = some (Token.terminal s) →
        get_at_index children (i :: rest) = none) := by
  refine ⟨fun children => rfl, fun s idx => rfl, ?_, ?_⟩
  · intro children i idx hlen
    have hnone : children[i]? = none := by
      rw [List.getElem?_eq_none_iff]
      exact hlen
    cases idx with
    | nil => simp [get_at_index, hnone]
    | cons j rest => simp [get_at_index, hnone]
  · intro children i s rest hne hterm
    cases rest with
    | nil => exact absurd rfl hne
    | cons j rest' => simp [get_at_index, hterm]

/-- Witness for C7: the out-of-range and descend-into-terminal cases at concrete
inputs. -/
theorem claim_C7_path_resolution_witness :
    get_at_index toksW [5] = none ∧
    get_at_index [Token.terminal ("1")] [0, 0] = none := by
  refine ⟨claim_C7_path_resolution.2.2.1 toksW 5 [] (by decide), ?_⟩
  exact claim_C7_path_resolution.2.2.2 [Token.terminal ("1")] 0 ("1") [0]
    (by decide) rfl

/-! ## Claim C8: root detection -/

/-- C8.  `compiles_to_root_token` is true exactly when `symbolize_string` on the
same input yields a sequence of exactly one top-level token. -/
theorem claim_C8_root_detection (bnf : BackusNaurForm) (fuel : Nat) (s : String)
    (toks : List Token) (h : symbolize_string bnf fuel s = some toks) :
    (compiles_to_root_token bnf fuel s = some true ↔ toks.length = 1) := by
  rw [compiles_to_root_token, h]
  simp

/-- Witness for C8 at the grammar `<digit> ::= "1" | "2"` and input `"12"` (two
top-level tokens, so root detection is false on both sides). -/
theorem claim_C8_root_detection_witness :
    compiles_to_root_token bnfW 5 ("12") = some true ↔ toksW.length = 1 :=
  claim_C8_root_detection bnfW 5 ("12") toksW rfl

/-! ## Claim C9: token–symbol equality -/

/-- C9.  The equality used for matching: a node equals a non-terminal reference iff
the label names agree (children are ignored), a terminal equals a terminal reference
iff the texts agree, and every cross-kind comparison is false. -/
theorem claim_C9_token_symbol_equality :
    (∀ (l : String) (cs : List Token) (n : String),
        tokenEqSymbol (Token.node l cs) (Symbol.nonTerminal n) = decide (l = n)) ∧
    (∀ t s : String,
        tokenEqSymbol (Token.terminal t) (Symbol.terminal s) = decide (t = s)) ∧
    (∀ t n : String,
        tokenEqSymbol (Token.terminal t) (Symbol.nonTerminal n) = false) ∧
    (∀ (l : String) (cs : List Token) (s : String),
        tokenEqSymbol (Token.node l cs) (Symbol.terminal s) = false) :=
  ⟨fun _ _ _ => rfl, fun _ _ => rfl, fun _ _ => rfl, fun _ _ _ => rfl⟩

/-! ## Lemmas: window matching and candidate ranges -/

theorem windowMatches_length (c : List Symbol) (w : List Token)
    (h : windowMatches c w = true) : w.length = c.length := by
  induction c generalizing w with
  | nil => cases w with
      | nil => rfl
      | cons t ts => simp [windowMatches] at h
  | cons s cs ih =>
      cases w with
      | nil => simp [windowMatches] at h
      | cons t ts =>
          simp only [windowMatches, Bool.and_eq_true] at h
          simp [ih ts h.2]

theorem rangesOfChoice_complete (l : List Token) (c : List Symbol) (hc : c ≠ [])
    (i : Nat) (h : windowMatches c (windowAt l i c.length) = true) :
    (i, i + c.length) ∈ rangesOfChoice l c := by
  have hlen : (windowAt l i c.length).length = c.length := windowMatches_length c _ h
  have hbound : i + c.length ≤ l.length := by
    have h1 : (windowAt l i c.length).length = min c.length (l.length - i) := by
      simp [windowAt]
    rw [h1] at hlen
    have hpos : 0 < c.length := List.length_pos.mpr hc
    rcases Nat.le_total c.length (l.length - i) with hle | hle
    · omega
    · rw [Nat.min_eq_right hle] at hlen
      omega
  unfold rangesOfChoice
  apply List.mem_filterMap.mpr
  refine ⟨i, List.mem_range.mpr (by omega), ?_⟩
  rw [if_pos h]

theorem rangesOfChoice_sound (l : List Token) (c : List Symbol) (s e : Nat)
    (h : (s, e) ∈ rangesOfChoice l c) :
    windowMatches c (windowAt l s c.length) = true ∧ e = s + c.length := by
  unfold rangesOfChoice at h
  obtain ⟨i, hi, hif⟩ := List.mem_filterMap.mp h
  by_cases hm : windowMatches c (windowAt l i c.length) = true
  · rw [if_pos hm] at hif
    have heq := Option.some.inj hif
    have hs : i = s := congrArg Prod.fst heq
    have he : i + c.length = e := congrArg Prod.snd heq
    subst hs
    exact ⟨hm, he.symm⟩
  · rw [if_neg hm] at hif
    simp at hif

theorem get_ranges_nil_no_match (l : List Token) (C : List (List Symbol))
    (h : get_ranges_from_choices l C = some []) :
    ∀ c ∈ C, ∀ i, windowMatches c (windowAt l i c.length) = false := by
  intro c hc i
  unfold get_ranges_from_choices at h
  by_cases hany : C.any List.isEmpty
  · rw [if_pos hany] at h
    simp at h
  · rw [if_neg hany] at h
    have hflat : C.flatMap (rangesOfChoice l) = [] := Option.some.inj h
    have hcne : c ≠ [] := by
      intro hnil
      apply hany
      rw [List.any_eq_true]
      exact ⟨c, hc, by simp [hnil]⟩
    by_contra hmatch
    simp only [Bool.not_eq_false] at hmatch
    have hmem : (i, i + c.length) ∈ C.flatMap (rangesOfChoice l) :=
      List.mem_flatMap.mpr ⟨c, hc, rangesOfChoice_complete l c hcne i hmatch⟩
    rw [hflat] at hmem
    simp at hmem

theorem get_ranges_subset_nil (l : List Token) (C C' : List (List Symbol))
    (hsub : ∀ c ∈ C', c ∈ C)
    (h : get_ranges_from_choices l C = some []) :
    get_ranges_from_choices l C' = some [] := by
  have hnomatch := get_ranges_nil_no_match l C h
  unfold get_ranges_from_choices at h ⊢
  by_cases hany : C.any List.isEmpty
  · rw [if_pos hany] at h
    simp at h
  · rw [if_neg hany] at h
    simp only [Bool.not_eq_true] at hany
    have hany' : C'.any List.isEmpty = false := by
      rw [List.any_eq_false]
      intro c hc
      exact List.any_eq_false.mp hany c (hsub c hc)
    rw [hany']
    simp only [Bool.false_eq_true, if_false, Option.some.injEq]
    rw [List.flatMap_eq_nil_iff]
    intro c hc
    by_contra hne
    obtain ⟨⟨rs0, re0⟩, hr⟩ := List.exists_mem_of_ne_nil _ hne
    have hm := (rangesOfChoice_sound l c rs0 re0 hr).1
    have hf := hnomatch c (hsub c hc) rs0
    rw [hm] at hf
    simp at hf

/-! ## Lemmas: the fixpoint property of `symbolize_string` (claim C2) -/

theorem replace_ranges_nil (f : List α → α) (l : List α) :
    replace_ranges f l [] = some l := rfl

theorem symbolize_vec_of_no_match (s : NonTerminalSymbol) (fuel : Nat)
    (vec out : List Token)
    (hfurther : further_symbolization_possible s vec = some false)
    (h : symbolize_vec s fuel vec = some out) : out = vec := by
  obtain ⟨r, hr, hrf⟩ := Option.map_eq_some.mp hfurther
  have hrnil : r = [] := by
    have hisEmpty : r.isEmpty = true := by simpa using hrf
    rwa [List.isEmpty_iff] at hisEmpty
  subst hrnil
  have hnonrec : get_ranges_of_possible_non_recursive_symbolization s vec = some [] :=
    get_ranges_subset_nil vec s.rule (get_non_recursive_choices s)
      (fun c hc => List.mem_of_mem_filter hc) hr
  have hrec : get_ranges_of_possible_recursive_symbolization s vec = some [] :=
    get_ranges_subset_nil vec s.rule (get_recursive_choices s)
      (fun c hc => List.mem_of_mem_filter hc) hr
  rw [symbolize_vec] at h
  rw [hnonrec] at h
  simp only [Option.bind_eq_bind, Option.some_bind] at h
  rw [replace_ranges_nil] at h
  simp only [Option.some_bind] at h
  rw [hrec] at h
  simp only [Option.some_bind] at h
  cases fuel with
  | zero => simp [symbolizeRecLoop] at h
  | succ fuel =>
      rw [symbolizeRecLoop, replace_ranges_nil] at h
      simp only [Option.bind_eq_bind, Option.some_bind] at h
      rw [hrec] at h
      simp only [Option.some_bind, List.isEmpty_nil, if_true] at h
      exact (Option.some.inj h).symm

theorem symbolizePass_monotone (fuel : Nat) (rules : List (NonTerminalSymbol × Nat)) :
    ∀ (vec out : List Token) (m : Bool),
      symbolizePass fuel rules vec true = some (out, m) → m = true := by
  induction rules with
  | nil =>
      intro vec out m h
      simp [symbolizePass] at h
      exact h.2
  | cons p rest ih =>
      intro vec out m h
      obtain ⟨sym, prio⟩ := p
      rw [symbolizePass] at h
      obtain ⟨possible, h1, h2⟩ := Option.bind_eq_some.mp h
      obtain ⟨vec', h3, h4⟩ := Option.bind_eq_some.mp h2
      rw [Bool.true_or] at h4
      exact ih vec' out m h4

theorem symbolizePass_no_modify (fuel : Nat) (rules : List (NonTerminalSymbol × Nat)) :
    ∀ (vec out : List Token),
      symbolizePass fuel rules vec false = some (out, false) →
      out = vec ∧
        ∀ p ∈ rules, further_symbolization_possible p.1 vec = some false := by
  induction rules with
  | nil =>
      intro vec out h
      simp [symbolizePass] at h
      exact ⟨h.symm, by simp⟩
  | cons p rest ih =>
      intro vec out h
      obtain ⟨sym, prio⟩ := p
      rw [symbolizePass] at h
      obtain ⟨possible, h1, h2⟩ := Option.bind_eq_some.mp h
      obtain ⟨vec', h3, h4⟩ := Option.bind_eq_some.mp h2
      cases possible with
      | true =>
          rw [Bool.false_or] at h4
          have := symbolizePass_monotone fuel rest vec' out false h4
          simp at this
      | false =>
          rw [Bool.false_or] at h4
          have hv : vec' = vec := symbolize_vec_of_no_match sym fuel vec vec' h1 h3
          subst hv
          obtain ⟨hout, hrest⟩ := ih vec' out h4
          refine ⟨hout, ?_⟩
          intro q hq
          rcases List.mem_cons.mp hq with heq | hmem
          · rw [heq]
            exact h1
          · exact hrest q hmem

theorem symbolizeLoop_fixpoint (rules : List (NonTerminalSymbol × Nat)) :
    ∀ (fuel : Nat) (vec out : List Token),
      symbolizeLoop rules fuel vec = some out →
      ∀ p ∈ rules, further_symbolization_possible p.1 out = some false := by
  intro fuel
  induction fuel with
  | zero => intro vec out h; simp [symbolizeLoop] at h
  | succ fuel ih =>
      intro vec out h
      rw [symbolizeLoop] at h
      obtain ⟨r, h1, h2⟩ := Option.bind_eq_some.mp h
      obtain ⟨vec', m⟩ := r
      by_cases hm : m
      · subst hm
        rw [if_pos rfl] at h2
        exact ih vec' out h2
      · simp only [Bool.not_eq_true] at hm
        subst hm
        simp only [if_false, Bool.false_eq_true] at h2
        have hout : vec' = out := Option.some.inj h2
        obtain ⟨hv, hall⟩ := symbolizePass_no_modify (fuel + 1) rules vec vec' h1
        intro p hp
        rw [← hout, hv]
        exact hall p hp

/-! ## Claim C2: the result is fully collapsed -/

/-- C2.  Fixpoint of the result: whenever `symbolize_string` returns a token
sequence, no contiguous window of it matches any choice of any registered symbol
(equivalently, `further_symbolization_possible` is `false` for every registered
symbol on the returned sequence). -/
theorem claim_C2_fixpoint (bnf : BackusNaurForm) (fuel : Nat) (s : String)
    (toks : List Token) (h : symbolize_string bnf fuel s = some toks) :
    ∀ p ∈ bnf.rules,
      further_symbolization_possible p.1 toks = some false ∧
      ∀ c ∈ p.1.rule, ∀ i, windowMatches c (windowAt toks i c.length) = false := by
  intro p hp
  have hmem : p ∈ sorted_rules bnf := by
    rw [sorted_rules, List.mem_reverse, mem_sortByKey]
    exact hp
  have hfurther :=
    symbolizeLoop_fixpoint (sorted_rules bnf) fuel (characterize_string s) toks h
      p hmem
  refine ⟨hfurther, ?_⟩
  obtain ⟨r, hr, hrf⟩ := Option.map_eq_some.mp hfurther
  have hrnil : r = [] := by
    have hisEmpty : r.isEmpty = true := by simpa using hrf
    rwa [List.isEmpty_iff] at hisEmpty
  subst hrnil
  exact get_ranges_nil_no_match toks p.1.rule hr

/-- Witness for C2: after symbolizing `"12"` under `<digit> ::= "1" | "2"`, the
registered symbol admits no further collapse. -/
theorem claim_C2_fixpoint_witness :
    further_symbolization_possible digitW toksW = some false :=
  (claim_C2_fixpoint bnfW 5 ("12") toksW rfl (digitW, 0) (by decide)).1

/-! ## Claim C3: symbol processing order (corrected)

The code sorts the rules stably by priority ascending and then reverses the whole
list, which reverses the relative order *within* an equal-priority group.  The
claim's "among symbols with equal priority the original declaration order is
preserved" is therefore false; what holds is the reverse of declaration order. -/

/-- C3 counterexample: symbols declared `a` then `b` at equal priority are
processed `b` then `a` — declaration order among equal priorities is reversed, not
preserved. -/
theorem claim_C3_counterexample :
    bnfAB.rules = [ruleA, ruleB] ∧
    sorted_rules bnfAB = [ruleB, ruleA] ∧
    ruleA ≠ ruleB := by
  refine ⟨rfl, rfl, ?_⟩
  decide

/-- C3 (amended).  Before the fixpoint passes the registered symbols are processed
in priority-descending order (`sorted_rules` is a permutation of the declarations,
pairwise descending by priority); among symbols with equal priority the original
declaration order is *reversed*. -/
theorem claim_C3_sorted_rules (bnf : BackusNaurForm) :
    (sorted_rules bnf).Perm bnf.rules ∧
    (sorted_rules bnf).Pairwise (fun a b => b.2 ≤ a.2) ∧
    (∀ a b : NonTerminalSymbol × Nat,
        [a, b].Sublist bnf.rules → a.2 = b.2 →
        [b, a].Sublist (sorted_rules bnf)) := by
  refine ⟨?_, ?_, ?_⟩
  · exact ((sortByKey _ bnf.rules).reverse_perm).trans
      (sortByKey_perm (fun a b => Nat.ble a.2 b.2) bnf.rules)
  · rw [sorted_rules, List.pairwise_reverse]
    have h := sortByKey_pairwise (fun a b => Nat.ble a.2 b.2)
      (fun a b => by
        rcases Nat.le_total a.2 b.2 with h | h
        · exact Or.inl (Nat.ble_eq.mpr h)
        · exact Or.inr (Nat.ble_eq.mpr h))
      (fun a b c hab hbc => by
        have h1 : a.2 ≤ b.2 := Nat.ble_eq.mp hab
        have h2 : b.2 ≤ c.2 := Nat.ble_eq.mp hbc
        exact Nat.ble_eq.mpr (Nat.le_trans h1 h2))
      bnf.rules
    refine h.imp ?_
    intro a b hab
    exact Nat.ble_eq.mp hab
  · intro a b hsub heq
    have hpair := sortByKey_stable_pair (fun a b => Nat.ble a.2 b.2) a b bnf.rules
      (Nat.ble_eq.mpr (Nat.le_of_eq heq)) hsub
    have := hpair.reverse
    simpa [sorted_rules] using this

/-- Witness for C3 (amended), at the two-rule grammar: the equal-priority pair
appears reversed in the processing order. -/
theorem claim_C3_sorted_rules_witness :
    [ruleB, ruleA].Sublist (sorted_rules bnfAB) :=
  (claim_C3_sorted_rules bnfAB).2.2 ruleA ruleB (List.Sublist.refl _) rfl

/-! ## Lemmas: descendant search (claim C10) -/

/-- The predicate `find_descendant` tests, with the redundant terminal arm folded
away (a terminal already handled by `tokenEqSymbol`). -/
def findDescPred (symbolType : Symbol) (t : Token) : Bool :=
  tokenEqSymbol t symbolType ||
    match t with
    | Token.node _ inner => contains_descendant inner symbolType
    | Token.terminal _ => false

theorem find_descendant_eq_find? (cs : List Token) (sym : Symbol) :
    find_descendant cs sym = cs.find? (findDescPred sym) := by
  unfold find_descendant
  congr 1
  funext t
  cases t with
  | node l inner => rfl
  | terminal i =>
      simp only [findDescPred]
      cases sym with
      | nonTerminal n => rfl
      | terminal s =>
          simp only [tokenEqSymbol, terminalEqSymbol, Bool.or_false]
          by_cases h : i = s
          · subst h
            simp
          · have h' : ¬s = i := fun hh => h hh.symm
            simp [h, h']

theorem contains_descendant_eq_any_children (cs : List Token) (sym : Symbol) :
    contains_descendant cs sym = cs.any (findDescPred sym) := by
  induction cs with
  | nil => simp [contains_descendant]
  | cons t rest ih =>
      cases t with
      | terminal s =>
          simp only [contains_descendant, List.any_cons, ih]
          rfl
      | node l inner =>
          simp only [contains_descendant, List.any_cons, ih]
          rfl

theorem contains_descendant_eq_any_descendants (cs : List Token) (sym : Symbol) :
    contains_descendant cs sym =
      (get_descendant_tokens cs).any (fun t => tokenEqSymbol t sym) := by
  induction cs using get_descendant_tokens.induct with
  | case1 => simp [contains_descendant, get_descendant_tokens]
  | case2 s rest ih =>
      simp only [contains_descendant, get_descendant_tokens, List.any_cons, ih]
      rw [Bool.or_false]
  | case3 l inner rest ihinner ihrest =>
      simp only [contains_descendant, get_descendant_tokens, List.any_cons,
        List.any_append, ihinner, ihrest]
      rw [Bool.or_assoc]

/-! ## Claim C10: `find_descendant` returns a direct child -/

/-- C10.  `find_descendant` (and the identically-searching `find_descendant_mut`)
only ever returns a direct child of the node: the first child that either itself
equals the symbol reference or contains a matching descendant at any depth.  The
returned token therefore need not itself match the reference (concrete example
included), a strictly deeper descendant is never returned, and the result is `none`
iff no descendant at any depth matches. -/
theorem claim_C10_find_descendant :
    (∀ (cs : List Token) (sym : Symbol) (t : Token),
        find_descendant cs sym = some t → t ∈ cs) ∧
    (∀ (cs : List Token) (sym : Symbol),
        find_descendant cs sym = cs.find? (findDescPred sym)) ∧
    (∀ (cs : List Token) (sym : Symbol),
        find_descendant cs sym = none ↔
          ((get_descendant_tokens cs).any fun t => tokenEqSymbol t sym) = false) ∧
    find_descendant_mut = find_descendant ∧
    (∃ (cs : List Token) (sym : Symbol) (t : Token),
        find_descendant cs sym = some t ∧ tokenEqSymbol t sym = false) := by
  refine ⟨?_, find_descendant_eq_find?, ?_, rfl, ?_⟩
  · intro cs sym t h
    rw [find_descendant_eq_find?] at h
    exact List.mem_of_find?_eq_some h
  · intro cs sym
    rw [find_descendant_eq_find?, List.find?_eq_none,
      ← contains_descendant_eq_any_descendants, contains_descendant_eq_any_children]
    constructor
    · intro h
      rw [List.any_eq_false]
      intro t ht
      have := h t ht
      simpa using this
    · intro h t ht
      have := List.any_eq_false.mp h t ht
      simpa using this
  · refine ⟨[Token.node ("a") [Token.node ("b") []]], Symbol.nonTerminal ("b"),
      Token.node ("a") [Token.node ("b") []], ?_, rfl⟩
    rw [find_descendant_eq_find?]
    have hcontains : contains_descendant [Token.node ("b") []]
        (Symbol.nonTerminal ("b")) = true := by
      simp [contains_descendant, tokenEqSymbol]
    simp [List.find?, findDescPred, tokenEqSymbol, hcontains]

/-- Witness for C10, discharging the hypotheses of the universally quantified
parts at a concrete tree: the returned token is the direct child `a`, which does
not match the searched symbol `b`. -/
theorem claim_C10_find_descendant_witness :
    Token.node ("a") [Token.node ("b") []] ∈
      [Token.node ("a") [Token.node ("b") []]] := by
  apply claim_C10_find_descendant.1 [Token.node ("a") [Token.node ("b") []]]
    (Symbol.nonTerminal ("b"))
  rw [claim_C10_find_descendant.2.1]
  have hcontains : contains_descendant [Token.node ("b") []]
      (Symbol.nonTerminal ("b")) = true := by
    simp [contains_descendant, tokenEqSymbol]
  simp [List.find?, findDescPred, tokenEqSymbol, hcontains]

/-! ## Lemmas: `replace_ranges` on descending disjoint ranges (claim C6) -/

theorem windowAt_append_left (A B : List α) (i k : Nat) (h : i + k ≤ A.length) :
    windowAt (A ++ B) i k = windowAt A i k := by
  unfold windowAt
  rw [List.drop_append_eq_append_drop, Nat.sub_eq_zero_of_le (by omega : i ≤ A.length),
    List.drop_zero, List.take_append_eq_append_take]
  have hlen : (A.drop i).length = A.length - i := List.length_drop ..
  rw [Nat.sub_eq_zero_of_le (by omega : k ≤ (A.drop i).length)]
  simp

theorem replace_range_append (f : List α → α) (A B : List α) (s e : Nat)
    (hse : s ≤ e) (he : e ≤ A.length) :
    replace_range f (A ++ B) (s, e) =
      some ((A.take s ++ f (windowAt A s (e - s)) :: A.drop e) ++ B) := by
  rw [replace_range_eq f (A ++ B) s e hse (by simp; omega)]
  have htake : (A ++ B).take s = A.take s := by
    rw [List.take_append_eq_append_take,
      Nat.sub_eq_zero_of_le (by omega : s ≤ A.length)]
    simp
  have hwin : windowAt (A ++ B) s (e - s) = windowAt A s (e - s) :=
    windowAt_append_left A B s (e - s) (by omega)
  have hdrop : (A ++ B).drop e = A.drop e ++ B := by
    rw [List.drop_append_eq_append_drop, Nat.sub_eq_zero_of_le he, List.drop_zero]
  rw [htake, hwin, hdrop]
  simp

theorem foldlM_replace_append (f : List α → α) :
    ∀ (Rs : List (Nat × Nat)) (A B : List α),
      (∀ r ∈ Rs, r.1 ≤ r.2 ∧ r.2 ≤ A.length) →
      Rs.Pairwise (fun r r' => r'.2 ≤ r.1) →
      List.foldlM (replace_range f) (A ++ B) Rs =
        some (segmented f A Rs ++ B) := by
  intro Rs
  induction Rs with
  | nil =>
      intro A B hb hp
      simp [List.foldlM, segmented]
  | cons r Rs ih =>
      intro A B hb hp
      obtain ⟨s, e⟩ := r
      obtain ⟨hse, heA⟩ := hb (s, e) (List.mem_cons_self _ _)
      rw [List.foldlM_cons, replace_range_append f A B s e hse heA]
      simp only [Option.bind_eq_bind, Option.some_bind]
      have hregroup : (A.take s ++ f (windowAt A s (e - s)) :: A.drop e) ++ B =
          A.take s ++ ((f (windowAt A s (e - s)) :: A.drop e) ++ B) := by
        simp [List.append_assoc]
      have hbounds : ∀ r' ∈ Rs, r'.1 ≤ r'.2 ∧ r'.2 ≤ (A.take s).length := by
        intro r' hr'
        have h1 := hb r' (List.mem_cons_of_mem _ hr')
        have h2 := (List.pairwise_cons.mp hp).1 r' hr'
        have hsA : s ≤ A.length := Nat.le_trans hse heA
        refine ⟨h1.1, ?_⟩
        rw [List.length_take, Nat.min_eq_left hsA]
        exact h2
      rw [hregroup, ih (A.take s) ((f (windowAt A s (e - s)) :: A.drop e) ++ B)
        hbounds (List.pairwise_cons.mp hp).2]
      rw [segmented]
      simp [List.append_assoc]

theorem foldlM_replace_desc (f : List α → α) (l : List α) (Rs : List (Nat × Nat))
    (hb : ∀ r ∈ Rs, r.1 ≤ r.2 ∧ r.2 ≤ l.length)
    (hp : Rs.Pairwise (fun r r' => r'.2 ≤ r.1)) :
    List.foldlM (replace_range f) l Rs = some (segmented f l Rs) := by
  have h := foldlM_replace_append f Rs l [] (by simpa using hb) hp
  simpa using h

theorem segmented_length (f : List α → α) :
    ∀ (Rs : List (Nat × Nat)) (l : List α),
      (∀ r ∈ Rs, r.1 ≤ r.2 ∧ r.2 ≤ l.length) →
      Rs.Pairwise (fun r r' => r'.2 ≤ r.1) →
      (segmented f l Rs).length + (Rs.map (fun r => r.2 - r.1)).sum =
        l.length + Rs.length := by
  intro Rs
  induction Rs with
  | nil =>
      intro l hb hp
      simp [segmented]
  | cons r Rs ih =>
      intro l hb hp
      obtain ⟨s, e⟩ := r
      obtain ⟨hse, hel⟩ := hb (s, e) (List.mem_cons_self _ _)
      have hsl : s ≤ l.length := Nat.le_trans hse hel
      have hbounds : ∀ r' ∈ Rs, r'.1 ≤ r'.2 ∧ r'.2 ≤ (l.take s).length := by
        intro r' hr'
        refine ⟨(hb r' (List.mem_cons_of_mem _ hr')).1, ?_⟩
        rw [List.length_take, Nat.min_eq_left hsl]
        exact (List.pairwise_cons.mp hp).1 r' hr'
      have hih := ih (l.take s) hbounds (List.pairwise_cons.mp hp).2
      rw [List.length_take, Nat.min_eq_left hsl] at hih
      rw [segmented]
      simp only [List.length_append, List.length_cons, List.length_drop,
        List.map_cons, List.sum_cons]
      omega

theorem any_of_perm (a b : List α) (p : α → Bool) (h : a.Perm b) :
    a.any p = b.any p := by
  cases hb : b.any p
  · rw [List.any_eq_false] at hb ⊢
    intro x hx
    exact hb x (h.mem_iff.mp hx)
  · rw [List.any_eq_true] at hb ⊢
    obtain ⟨x, hx, hp⟩ := hb
    exact ⟨x, h.mem_iff.mpr hx, hp⟩

theorem sorted_desc_of_disjoint (ranges : List (Nat × Nat))
    (hne : ∀ r ∈ ranges, r.1 < r.2)
    (hdisj : ranges.Pairwise (fun r r' => r.2 ≤ r'.1 ∨ r'.2 ≤ r.1)) :
    ((sortByKey (fun a b => Nat.ble a.1 b.1) ranges).reverse).Pairwise
      (fun r r' => r'.2 ≤ r.1) := by
  rw [List.pairwise_reverse]
  have hperm := sortByKey_perm (fun a b => Nat.ble a.1 b.1) ranges
  have hasc := sortByKey_pairwise (fun a b => Nat.ble a.1 b.1)
    (fun a b => by
      rcases Nat.le_total a.1 b.1 with h | h
      · exact Or.inl (Nat.ble_eq.mpr h)
      · exact Or.inr (Nat.ble_eq.mpr h))
    (fun a b c hab hbc => by
      have h1 : a.1 ≤ b.1 := Nat.ble_eq.mp hab
      have h2 : b.1 ≤ c.1 := Nat.ble_eq.mp hbc
      exact Nat.ble_eq.mpr (Nat.le_trans h1 h2))
    ranges
  have hdisj' : (sortByKey (fun a b => Nat.ble a.1 b.1) ranges).Pairwise
      (fun r r' => r.2 ≤ r'.1 ∨ r'.2 ≤ r.1) := by
    refine (List.Perm.pairwise_iff ?_ hperm).mpr hdisj
    intro a b hab
    omega
  have hboth := hasc.and hdisj'
  refine hboth.imp_of_mem ?_
  intro a b ha hb hab
  have ha' : a.1 < a.2 := hne a (hperm.mem_iff.mp ha)
  have hb' : b.1 < b.2 := hne b (hperm.mem_iff.mp hb)
  have hle : a.1 ≤ b.1 := Nat.ble_eq.mp hab.1
  rcases hab.2 with h | h
  · exact h
  · omega

theorem filterMap_congr_mem (xs : List β) (f g : β → Option α)
    (h : ∀ x ∈ xs, f x = g x) : xs.filterMap f = xs.filterMap g := by
  induction xs with
  | nil => rfl
  | cons x xs ih =>
      rw [List.filterMap_cons, List.filterMap_cons, h x (List.mem_cons_self _ _),
        ih fun y hy => h y (List.mem_cons_of_mem _ hy)]

theorem filterMap_getElem_range (l : List α) (e m : Nat) (h : e + m = l.length) :
    (List.range m).filterMap (fun j => l[e + j]?) = l.drop e := by
  induction m generalizing e with
  | zero =>
      have he : e = l.length := by omega
      subst he
      simp [List.drop_length]
  | succ m ih =>
      have he : e < l.length := by omega
      rw [List.range_succ_eq_map, List.filterMap_cons, List.filterMap_map]
      have h0 : l[e + 0]? = some l[e] := by
        have : e + 0 = e := by omega
        rw [this]
        exact List.getElem?_eq_getElem he
      rw [h0]
      have hcomp : ((fun j => l[e + j]?) ∘ (· + 1)) = fun j => l[e + 1 + j]? := by
        funext j
        have : e + (j + 1) = e + 1 + j := by omega
        simp [Function.comp, this]
      rw [hcomp, ih (e + 1) (by omega), List.drop_eq_getElem_cons he]

theorem outsideElems_nil (l : List α) : outsideElems l [] = l := by
  unfold outsideElems
  simp only [List.any_nil, Bool.false_eq_true, if_false]
  have hcong : ∀ i ∈ List.range l.length, l[i]? = l[0 + i]? := by
    intro i _
    have h0 : (0 : Nat) + i = i := by omega
    rw [h0]
  rw [filterMap_congr_mem _ _ _ hcong]
  have h := filterMap_getElem_range l 0 l.length (by omega)
  rw [List.drop_zero] at h
  exact h

theorem outsideElems_decompose (l : List α) (s e : Nat) (Rs : List (Nat × Nat))
    (hse : s ≤ e) (hel : e ≤ l.length) (hRs : ∀ r ∈ Rs, r.2 ≤ s) :
    outsideElems l ((s, e) :: Rs) = outsideElems (l.take s) Rs ++ l.drop e := by
  have hsl : s ≤ l.length := Nat.le_trans hse hel
  unfold outsideElems
  have hsplit1 : List.range l.length =
      List.range e ++ (List.range (l.length - e)).map (e + ·) := by
    rw [← List.range_add]
    congr 1
    omega
  have hsplit2 : List.range e = List.range s ++ (List.range (e - s)).map (s + ·) := by
    rw [← List.range_add]
    congr 1
    omega
  rw [hsplit1, hsplit2, List.append_assoc, List.filterMap_append, List.filterMap_append]
  have hpiece1 : (List.range s).filterMap
      (fun i => if ((s, e) :: Rs).any (fun r => decide (r.1 ≤ i) && decide (i < r.2))
        then none else l[i]?) =
      (List.range (l.take s).length).filterMap
      (fun i => if Rs.any (fun r => decide (r.1 ≤ i) && decide (i < r.2))
        then none else (l.take s)[i]?) := by
    rw [List.length_take, Nat.min_eq_left hsl]
    apply filterMap_congr_mem
    intro i hi
    have hilt : i < s := List.mem_range.mp hi
    have hhead : (decide (s ≤ i) && decide (i < e)) = false := by
      have : ¬s ≤ i := by omega
      simp [this]
    rw [List.any_cons, hhead, Bool.false_or, List.getElem?_take_of_lt hilt]
  have hpiece2 : ((List.range (e - s)).map (s + ·)).filterMap
      (fun i => if ((s, e) :: Rs).any (fun r => decide (r.1 ≤ i) && decide (i < r.2))
        then none else l[i]?) = [] := by
    rw [List.filterMap_eq_nil_iff]
    intro i hi
    obtain ⟨j, hj, rfl⟩ := List.mem_map.mp hi
    have hjlt : j < e - s := List.mem_range.mp hj
    have hany : (((s, e) :: Rs).any
        (fun r => decide (r.1 ≤ s + j) && decide (s + j < r.2))) = true := by
      rw [List.any_cons]
      have h1 : s ≤ s + j := by omega
      have h2 : s + j < e := by omega
      simp [h1, h2]
    simp [hany]
  have hpiece3 : ((List.range (l.length - e)).map (e + ·)).filterMap
      (fun i => if ((s, e) :: Rs).any (fun r => decide (r.1 ≤ i) && decide (i < r.2))
        then none else l[i]?) = l.drop e := by
    rw [List.filterMap_map]
    have hcong : ∀ j ∈ List.range (l.length - e),
        ((fun i => if ((s, e) :: Rs).any (fun r => decide (r.1 ≤ i) && decide (i < r.2))
          then none else l[i]?) ∘ (e + ·)) j = l[e + j]? := by
      intro j hj
      have hcov : ((s, e) :: Rs).any
          (fun r => decide (r.1 ≤ e + j) && decide (e + j < r.2)) = false := by
        rw [List.any_cons]
        have hhead : (decide (s ≤ e + j) && decide (e + j < e)) = false := by
          have h2 : ¬e + j < e := by omega
          simp [h2]
        rw [hhead, Bool.false_or, List.any_eq_false]
        intro r hr
        have h3 := hRs r hr
        have h4 : ¬e + j < r.2 := by omega
        simp [h4]
      simp only [Function.comp_apply]
      rw [hcov]
      simp
    rw [filterMap_congr_mem _ _ _ hcong]
    exact filterMap_getElem_range l e (l.length - e) (by omega)
  rw [hpiece1, hpiece2, hpiece3]
  rfl

theorem outside_sublist_segmented (f : List α → α) :
    ∀ (Rs : List (Nat × Nat)) (l : List α),
      (∀ r ∈ Rs, r.1 ≤ r.2 ∧ r.2 ≤ l.length) →
      Rs.Pairwise (fun r r' => r'.2 ≤ r.1) →
      (outsideElems l Rs).Sublist (segmented f l Rs) := by
  intro Rs
  induction Rs with
  | nil =>
      intro l hb hp
      rw [outsideElems_nil]
      simp [segmented]
  | cons r Rs ih =>
      intro l hb hp
      obtain ⟨s, e⟩ := r
      obtain ⟨hse, hel⟩ := hb (s, e) (List.mem_cons_self _ _)
      have hsl : s ≤ l.length := Nat.le_trans hse hel
      rw [outsideElems_decompose l s e Rs hse hel (List.pairwise_cons.mp hp).1,
        segmented]
      have hbounds : ∀ r' ∈ Rs, r'.1 ≤ r'.2 ∧ r'.2 ≤ (l.take s).length := by
        intro r' hr'
        refine ⟨(hb r' (List.mem_cons_of_mem _ hr')).1, ?_⟩
        rw [List.length_take, Nat.min_eq_left hsl]
        exact (List.pairwise_cons.mp hp).1 r' hr'
      exact List.Sublist.append (ih (l.take s) hbounds (List.pairwise_cons.mp hp).2)
        (List.Sublist.cons _ (List.Sublist.refl _))

/-! ## Claim C6: range replacement (corrected)

As stated the claim fails when an empty range shares its position with another
range: both are "pairwise disjoint" as index sets, yet the element inserted for the
empty range is swallowed into the other range's reducer application, which then no
longer receives the removed sub-sequence.  Nonempty (and in-bounds) ranges are
required; with them the full postcondition holds. -/

/-- C6 counterexample: the half-open ranges `[1,5)` and `[1,1)` are disjoint as
index sets, yet `replace_ranges` (with a sum reducer) does not replace range
`[1,5)` by the reducer of its removed sub-sequence `[20,30,40,50]` (the value 140
is absent from the result; the inserted empty-range element 0 was swallowed and the
in-range element 50 survives). -/
theorem claim_C6_counterexample :
    List.Pairwise
      (fun r r' : Nat × Nat => ∀ i : Nat, ¬(r.1 ≤ i ∧ i < r.2 ∧ r'.1 ≤ i ∧ i < r'.2))
      [(1, 5), (1, 1)] ∧
    replace_ranges (fun ts : List Nat => ts.sum) [10, 20, 30, 40, 50, 60]
      [(1, 5), (1, 1)] = some [10, 90, 50, 60] ∧
    ([20, 30, 40, 50] : List Nat).sum = 140 ∧
    (140 : Nat) ∉ ([10, 90, 50, 60] : List Nat) := by
  refine ⟨?_, rfl, rfl, by decide⟩
  constructor
  · intro r' hr' i
    simp only [List.mem_singleton] at hr'
    subst hr'
    omega
  · simp

/-- C6 (amended).  For every sequence and every list of pairwise-disjoint,
*nonempty*, in-bounds half-open index ranges, `replace_ranges` succeeds and
replaces each range (processed in descending start order) with the single element
produced by the reducer applied to the removed sub-sequence (`segmented`); the
resulting length satisfies `out.length + Σ range-length = l.length + #ranges`
(equivalently, original length minus Σ (range length − 1)); and the elements
outside all ranges survive unchanged, in their original relative order. -/
theorem claim_C6_replace_ranges (f : List α → α) (l : List α)
    (ranges : List (Nat × Nat))
    (hwf : ∀ r ∈ ranges, r.1 < r.2 ∧ r.2 ≤ l.length)
    (hdisj : ranges.Pairwise (fun r r' => r.2 ≤ r'.1 ∨ r'.2 ≤ r.1)) :
    ∃ out, replace_ranges f l ranges = some out ∧
      out = segmented f l ((sortByKey (fun a b => Nat.ble a.1 b.1) ranges).reverse) ∧
      out.length + (ranges.map (fun r => r.2 - r.1)).sum =
        l.length + ranges.length ∧
      (outsideElems l ranges).Sublist out := by
  have hpermsort := sortByKey_perm (fun a b => Nat.ble a.1 b.1) ranges
  have hperm : ((sortByKey (fun a b => Nat.ble a.1 b.1) ranges).reverse).Perm ranges :=
    ((sortByKey (fun a b => Nat.ble a.1 b.1) ranges).reverse_perm).trans hpermsort
  have hb : ∀ r ∈ (sortByKey (fun a b => Nat.ble a.1 b.1) ranges).reverse,
      r.1 ≤ r.2 ∧ r.2 ≤ l.length := by
    intro r hr
    have h := hwf r (hperm.mem_iff.mp hr)
    exact ⟨Nat.le_of_lt h.1, h.2⟩
  have hp := sorted_desc_of_disjoint ranges (fun r hr => (hwf r hr).1) hdisj
  refine ⟨_, ?_, rfl, ?_, ?_⟩
  · rw [replace_ranges]
    exact foldlM_replace_desc f l _ hb hp
  · have hlen := segmented_length f ((sortByKey (fun a b => Nat.ble a.1 b.1) ranges).reverse) l hb hp
    have hsum : (((sortByKey (fun a b => Nat.ble a.1 b.1) ranges).reverse).map
        (fun r => r.2 - r.1)).sum = (ranges.map (fun r => r.2 - r.1)).sum :=
      (hperm.map _).sum_eq
    have hlength : ((sortByKey (fun a b => Nat.ble a.1 b.1) ranges).reverse).length =
        ranges.length := hperm.length_eq
    omega
  · have hsub := outside_sublist_segmented f
      ((sortByKey (fun a b => Nat.ble a.1 b.1) ranges).reverse) l hb hp
    have heq : outsideElems l ranges =
        outsideElems l ((sortByKey (fun a b => Nat.ble a.1 b.1) ranges).reverse) := by
      unfold outsideElems
      apply filterMap_congr_mem
      intro i _
      rw [any_of_perm _ _ _ hperm.symm]
    rw [heq]
    exact hsub

/-- Witness for C6 (amended) at a concrete sequence and one nonempty in-bounds
range. -/
theorem claim_C6_replace_ranges_witness :
    ∃ out, replace_ranges (fun ts : List Nat => ts.sum) [10, 20, 30, 40, 50, 60]
        [(1, 5)] = some out ∧
      out = segmented (fun ts : List Nat => ts.sum) [10, 20, 30, 40, 50, 60]
        ((sortByKey (fun a b => Nat.ble a.1 b.1) [(1, 5)]).reverse) ∧
      out.length + (([(1, 5)] : List (Nat × Nat)).map (fun r => r.2 - r.1)).sum =
        ([10, 20, 30, 40, 50, 60] : List Nat).length +
          ([(1, 5)] : List (Nat × Nat)).length ∧
      (outsideElems [10, 20, 30, 40, 50, 60] [(1, 5)]).Sublist out :=
  claim_C6_replace_ranges (fun ts : List Nat => ts.sum) [10, 20, 30, 40, 50, 60]
    [(1, 5)] (by decide) (by simp)

/-! ## Lemmas: a single non-recursive sweep reaches its own fixpoint (claim C4) -/

theorem windowMatches_mem (c : List Symbol) (w : List Token) (t : Token)
    (hm : windowMatches c w = true) (ht : t ∈ w) :
    ∃ sym ∈ c, tokenEqSymbol t sym = true := by
  induction c generalizing w with
  | nil =>
      cases w with
      | nil => simp at ht
      | cons x xs => simp [windowMatches] at hm
  | cons s cs ih =>
      cases w with
      | nil => simp [windowMatches] at hm
      | cons x xs =>
          simp only [windowMatches, Bool.and_eq_true] at hm
          rcases List.mem_cons.mp ht with rfl | hmem
          · exact ⟨s, List.mem_cons_self _ _, hm.1⟩
          · obtain ⟨sym, hsym, heq⟩ := ih xs hm.2 hmem
            exact ⟨sym, List.mem_cons_of_mem _ hsym, heq⟩

theorem tokenEqSymbol_node_eq (name : String) (cs : List Token) (sym : Symbol)
    (h : tokenEqSymbol (Token.node name cs) sym = true) :
    sym = Symbol.nonTerminal name := by
  cases sym with
  | terminal t => simp [tokenEqSymbol] at h
  | nonTerminal n =>
      simp only [tokenEqSymbol, decide_eq_true_eq] at h
      rw [h]

theorem windowAt_take (l : List α) (s j k : Nat) (h : j + k ≤ s) :
    windowAt (l.take s) j k = windowAt l j k := by
  unfold windowAt
  rw [List.drop_take, List.take_take, Nat.min_eq_left (by omega : k ≤ s - j)]

theorem mem_windowAt (l : List α) (i k j : Nat) (hij : i ≤ j) (hjk : j < i + k)
    (hj : j < l.length) : l[j] ∈ windowAt l i k := by
  have h2 : (windowAt l i k)[j - i]? = some l[j] := by
    unfold windowAt
    rw [List.getElem?_take_of_lt (by omega : j - i < k), List.getElem?_drop]
    have hji : i + (j - i) = j := by omega
    rw [hji]
    exact List.getElem?_eq_getElem hj
  exact List.getElem?_mem h2

theorem sorted_start_desc (ranges : List (Nat × Nat)) :
    ((sortByKey (fun a b => Nat.ble a.1 b.1) ranges).reverse).Pairwise
      (fun a b => b.1 ≤ a.1) := by
  rw [List.pairwise_reverse]
  have hasc := sortByKey_pairwise (fun a b => Nat.ble a.1 b.1)
    (fun a b => by
      rcases Nat.le_total a.1 b.1 with h | h
      · exact Or.inl (Nat.ble_eq.mpr h)
      · exact Or.inr (Nat.ble_eq.mpr h))
    (fun a b c hab hbc => by
      have h1 : a.1 ≤ b.1 := Nat.ble_eq.mp hab
      have h2 : b.1 ≤ c.1 := Nat.ble_eq.mp hbc
      exact Nat.ble_eq.mpr (Nat.le_trans h1 h2))
    ranges
  refine hasc.imp ?_
  intro a b hab
  exact Nat.ble_eq.mp hab

/-- The key invariant: replacing, right to left, a superset of every window that
matches one of the choices `C` leaves a sequence with no window matching any
choice of `C`, provided no choice mentions the label of the freshly built nodes. -/
theorem fold_replace_no_match (name : String) (C : List (List Symbol))
    (hne : ∀ c ∈ C, c ≠ [])
    (hnr : ∀ c ∈ C, Symbol.nonTerminal name ∉ c) :
    ∀ (Rs : List (Nat × Nat)) (v out : List Token),
      (∀ r ∈ Rs, r.1 < r.2) →
      Rs.Pairwise (fun a b => b.1 ≤ a.1) →
      (∀ c ∈ C, ∀ i, windowMatches c (windowAt v i c.length) = true →
        (i, i + c.length) ∈ Rs) →
      List.foldlM (replace_range (fun ts => Token.node name ts)) v Rs = some out →
      ∀ c ∈ C, ∀ i, windowMatches c (windowAt out i c.length) = false := by
  intro Rs
  induction Rs with
  | nil =>
      intro v out hlt hpair hcomp hfold c hc i
      simp [List.foldlM] at hfold
      subst hfold
      by_contra hmatch
      simp only [Bool.not_eq_false] at hmatch
      exact absurd (hcomp c hc i hmatch) (List.not_mem_nil _)
  | cons r Rs ih =>
      intro v out hlt hpair hcomp hfold c hc i
      obtain ⟨s, e⟩ := r
      rw [List.foldlM_cons] at hfold
      obtain ⟨v', h1, h2⟩ := Option.bind_eq_some.mp hfold
      have hse : s < e := hlt (s, e) (List.mem_cons_self _ _)
      obtain ⟨heL, hv'⟩ := replace_range_some _ v s e v' hse h1
      have hsv : s ≤ v.length := Nat.le_trans (Nat.le_of_lt hse) heL
      have hlenA : (v.take s).length = s := by
        rw [List.length_take]
        exact Nat.min_eq_left hsv
      refine ih v' out (fun r hr => hlt r (List.mem_cons_of_mem _ hr))
        (List.pairwise_cons.mp hpair).2 ?_ h2 c hc i
      intro c' hc' j hmatch
      have hk : c'.length ≠ 0 := by
        intro h0
        exact hne c' hc' (List.length_eq_zero.mp h0)
      by_cases hlow : j + c'.length ≤ s
      · -- the window lies strictly before the replaced range: it existed in v
        have htrans : windowAt v' j c'.length = windowAt v j c'.length := by
          rw [hv', windowAt_append_left _ _ j c'.length (by omega),
            windowAt_take v s j c'.length hlow]
        rw [htrans] at hmatch
        have hmem := hcomp c' hc' j hmatch
        rcases List.mem_cons.mp hmem with heq | hmem'
        · exfalso
          have : j = s := congrArg Prod.fst heq
          omega
        · exact hmem'
      · by_cases hhigh : s + 1 ≤ j
        · -- the window lies strictly after the new node: it maps to a window of v
          -- starting past s, contradicting that s is the maximal remaining start
          exfalso
          have hdropEq : v'.drop j = v.drop (e + (j - s - 1)) := by
            rw [hv', List.drop_append_eq_append_drop, hlenA,
              List.drop_eq_nil_of_le (by omega : (v.take s).length ≤ j)]
            have hcons : (Token.node name (windowAt v s (e - s)) :: v.drop e).drop
                (j - s) = (v.drop e).drop (j - s - 1) := by
              have hj1 : j - s = (j - s - 1) + 1 := by omega
              conv_lhs => rw [hj1]
              rw [List.drop_succ_cons]
            rw [List.nil_append, hcons, List.drop_drop]
          have htrans : windowAt v' j c'.length =
              windowAt v (e + (j - s - 1)) c'.length := by
            unfold windowAt
            rw [hdropEq]
          rw [htrans] at hmatch
          have hmem := hcomp c' hc' (e + (j - s - 1)) hmatch
          rcases List.mem_cons.mp hmem with heq | hmem'
          · have : e + (j - s - 1) = s := congrArg Prod.fst heq
            omega
          · have := (List.pairwise_cons.mp hpair).1 _ hmem'
            simp only at this
            omega
        · -- the window covers position s, whose token is the new node: no choice
          -- element can equal it
          exfalso
          have hjs : j ≤ s ∧ s < j + c'.length := by omega
          have hslen : s < v'.length := by
            rw [hv']
            rw [List.length_append, hlenA]
            simp
          have hnodeq : v'[s]? = some (Token.node name (windowAt v s (e - s))) := by
            rw [hv', List.getElem?_append_right (by omega : (v.take s).length ≤ s),
              hlenA, Nat.sub_self]
            simp
          have hnode : v'[s] = Token.node name (windowAt v s (e - s)) := by
            have hg := List.getElem?_eq_getElem hslen
            rw [hg] at hnodeq
            exact Option.some.inj hnodeq
          have hmem : v'[s] ∈ windowAt v' j c'.length :=
            mem_windowAt v' j c'.length s hjs.1 hjs.2 hslen
          obtain ⟨sym, hsym, heqs⟩ := windowMatches_mem c' _ _ hmatch hmem
          rw [hnode] at heqs
          have := tokenEqSymbol_node_eq name _ sym heqs
          rw [this] at hsym
          exact hnr c' hc' hsym

theorem get_ranges_some_elim (l : List Token) (C : List (List Symbol))
    (x : List (Nat × Nat)) (h : get_ranges_from_choices l C = some x) :
    C.any List.isEmpty = false ∧ x = C.flatMap (rangesOfChoice l) := by
  unfold get_ranges_from_choices at h
  by_cases hany : C.any List.isEmpty
  · rw [if_pos hany] at h
    simp at h
  · rw [if_neg hany] at h
    simp only [Bool.not_eq_true] at hany
    exact ⟨hany, (Option.some.inj h).symm⟩

theorem get_ranges_eq_nil_of_no_match (l : List Token) (C : List (List Symbol))
    (hguard : C.any List.isEmpty = false)
    (h : ∀ c ∈ C, ∀ i, windowMatches c (windowAt l i c.length) = false) :
    get_ranges_from_choices l C = some [] := by
  unfold get_ranges_from_choices
  rw [hguard]
  simp only [Bool.false_eq_true, if_false, Option.some.injEq]
  rw [List.flatMap_eq_nil_iff]
  intro c hc
  by_contra hne
  obtain ⟨⟨rs0, re0⟩, hr⟩ := List.exists_mem_of_ne_nil _ hne
  have hm := (rangesOfChoice_sound l c rs0 re0 hr).1
  have hf := h c hc rs0
  rw [hm] at hf
  simp at hf

theorem symbolizeRecLoop_final (s : NonTerminalSymbol) :
    ∀ (fuel : Nat) (v : List Token) (rs : List (Nat × Nat)) (out : List Token),
      symbolizeRecLoop s fuel v rs = some out →
      get_ranges_of_possible_recursive_symbolization s out = some [] := by
  intro fuel
  induction fuel with
  | zero => intro v rs out h; simp [symbolizeRecLoop] at h
  | succ fuel ih =>
      intro v rs out h
      rw [symbolizeRecLoop] at h
      obtain ⟨v', h1, h2⟩ := Option.bind_eq_some.mp h
      obtain ⟨rs', h3, h4⟩ := Option.bind_eq_some.mp h2
      by_cases hemp : rs'.isEmpty
      · rw [if_pos hemp] at h4
        have hvout : v' = out := Option.some.inj h4
        subst hvout
        rw [List.isEmpty_iff] at hemp
        rw [hemp] at h3
        exact h3
      · rw [if_neg hemp] at h4
        exact ih v' rs' out h4

theorem nonrec_fixpoint (s : NonTerminalSymbol) (vec mid : List Token)
    (ranges : List (Nat × Nat))
    (hget : get_ranges_of_possible_non_recursive_symbolization s vec = some ranges)
    (hrep : replace_ranges (fun ts => Token.node s.name ts) vec ranges = some mid) :
    get_ranges_of_possible_non_recursive_symbolization s mid = some [] := by
  obtain ⟨hguard, hranges⟩ := get_ranges_some_elim vec _ ranges hget
  have hne : ∀ c ∈ get_non_recursive_choices s, c ≠ [] := by
    intro c hc hnil
    have := List.any_eq_false.mp hguard c hc
    rw [hnil] at this
    simp at this
  have hnr : ∀ c ∈ get_non_recursive_choices s, Symbol.nonTerminal s.name ∉ c := by
    intro c hc
    have := (List.mem_filter.mp hc).2
    simpa using this
  have hperm : ((sortByKey (fun a b => Nat.ble a.1 b.1) ranges).reverse).Perm ranges :=
    (List.reverse_perm _).trans (sortByKey_perm _ _)
  have hlt : ∀ r ∈ (sortByKey (fun a b => Nat.ble a.1 b.1) ranges).reverse,
      r.1 < r.2 := by
    intro r hr
    have hr' : r ∈ ranges := hperm.mem_iff.mp hr
    rw [hranges] at hr'
    obtain ⟨c, hc, hrc⟩ := List.mem_flatMap.mp hr'
    obtain ⟨rs0, re0⟩ := r
    have hsound := (rangesOfChoice_sound vec c rs0 re0 hrc).2
    have hpos : 0 < c.length := List.length_pos.mpr (hne c hc)
    omega
  have hcomp : ∀ c ∈ get_non_recursive_choices s, ∀ i,
      windowMatches c (windowAt vec i c.length) = true →
      (i, i + c.length) ∈ (sortByKey (fun a b => Nat.ble a.1 b.1) ranges).reverse := by
    intro c hc i hm
    apply hperm.mem_iff.mpr
    rw [hranges]
    exact List.mem_flatMap.mpr ⟨c, hc, rangesOfChoice_complete vec c (hne c hc) i hm⟩
  rw [replace_ranges] at hrep
  have hnomatch := fold_replace_no_match s.name (get_non_recursive_choices s) hne hnr
    ((sortByKey (fun a b => Nat.ble a.1 b.1) ranges).reverse) vec mid hlt
    (sorted_start_desc ranges) hcomp hrep
  exact get_ranges_eq_nil_of_no_match mid _ hguard hnomatch

/-! ## Claim C4: per-symbol collapse order -/

/-- C4.  In `symbolize_vec`, a choice is classified recursive iff it contains a
reference to the symbol's own name; whenever the call returns, the non-recursive
choices were applied first and to fixpoint (after the single non-recursive sweep no
window matches a non-recursive choice any more), and only afterwards the recursive
choices were applied, repeatedly, until no recursive window remained in the final
sequence. -/
theorem claim_C4_symbolize_vec_order (s : NonTerminalSymbol) (fuel : Nat)
    (vec out : List Token) (h : symbolize_vec s fuel vec = some out) :
    (∀ c, c ∈ get_recursive_choices s ↔
        c ∈ s.rule ∧ Symbol.nonTerminal s.name ∈ c) ∧
    ∃ ranges mid recRanges,
      get_ranges_of_possible_non_recursive_symbolization s vec = some ranges ∧
      replace_ranges (fun ts => Token.node s.name ts) vec ranges = some mid ∧
      get_ranges_of_possible_non_recursive_symbolization s mid = some [] ∧
      get_ranges_of_possible_recursive_symbolization s mid = some recRanges ∧
      symbolizeRecLoop s fuel mid recRanges = some out ∧
      get_ranges_of_possible_recursive_symbolization s out = some [] := by
  constructor
  · intro c
    constructor
    · intro hc
      have := List.mem_filter.mp hc
      exact ⟨this.1, by simpa using this.2⟩
    · intro hc
      exact List.mem_filter.mpr ⟨hc.1, by simpa using hc.2⟩
  · rw [symbolize_vec] at h
    obtain ⟨ranges, h1, h2⟩ := Option.bind_eq_some.mp h
    obtain ⟨mid, h3, h4⟩ := Option.bind_eq_some.mp h2
    obtain ⟨recRanges, h5, h6⟩ := Option.bind_eq_some.mp h4
    exact ⟨ranges, mid, recRanges, h1, h3,
      nonrec_fixpoint s vec mid ranges h1 h3, h5, h6,
      symbolizeRecLoop_final s fuel mid recRanges out h6⟩

/-- Witness for C4 at `<digit> ::= "1" | "2"` on the characterized string `"12"`. -/
theorem claim_C4_symbolize_vec_order_witness :
    (∀ c, c ∈ get_recursive_choices digitW ↔
        c ∈ digitW.rule ∧ Symbol.nonTerminal digitW.name ∈ c) ∧
    ∃ ranges mid recRanges,
      get_ranges_of_possible_non_recursive_symbolization digitW
        (characterize_string ("12")) = some ranges ∧
      replace_ranges (fun ts => Token.node digitW.name ts)
        (characterize_string ("12")) ranges = some mid ∧
      get_ranges_of_possible_non_recursive_symbolization digitW mid = some [] ∧
      get_ranges_of_possible_recursive_symbolization digitW mid = some recRanges ∧
      symbolizeRecLoop digitW 3 mid recRanges = some toksW ∧
      get_ranges_of_possible_recursive_symbolization digitW toksW = some [] :=
  claim_C4_symbolize_vec_order digitW 3 (characterize_string ("12")) toksW rfl

end BNF
